import Mathlib

/-!
Verification of the rustray renderer core against its specification.

The Rust source is shallowly embedded: f32/f64 scalars are modelled as
exact rationals, Rust structs become Lean structures, and fallible or
panicking paths are modelled with Option.  Square roots computed by the
code are threaded as explicit parameters constrained by hypotheses of the
form 0 <= s and s * s = radicand, so every definition stays executable.
-/

namespace RustRay

/-! ## Vector math (src/core/vec.rs) -/

/-- Three-dimensional vector, components modelled as exact rationals
(src/core/vec.rs, struct Vec3). -/
structure Vec3 where
  x : ℚ
  y : ℚ
  z : ℚ
deriving DecidableEq, Repr

/-- Componentwise addition (src/core/vec.rs, Add impl). -/
def Vec3.add (a b : Vec3) : Vec3 :=
  ⟨a.x + b.x, a.y + b.y, a.z + b.z⟩

instance : Add Vec3 := ⟨Vec3.add⟩

/-- Componentwise subtraction (src/core/vec.rs, Sub impl). -/
def Vec3.sub (a b : Vec3) : Vec3 :=
  ⟨a.x - b.x, a.y - b.y, a.z - b.z⟩

instance : Sub Vec3 := ⟨Vec3.sub⟩

/-- Componentwise negation (src/core/vec.rs, Neg impl). -/
def Vec3.negate (a : Vec3) : Vec3 :=
  ⟨-a.x, -a.y, -a.z⟩

instance : Neg Vec3 := ⟨Vec3.negate⟩

/-- Scalar multiplication, mirroring the Mul f32 for Vec3 impls. -/
def Vec3.smul (k : ℚ) (v : Vec3) : Vec3 :=
  ⟨k * v.x, k * v.y, k * v.z⟩

/-- Dot product (src/core/vec.rs, Vec3::dot). -/
def Vec3.dot (a b : Vec3) : ℚ :=
  a.x * b.x + a.y * b.y + a.z * b.z

/-- Squared magnitude (src/core/vec.rs, Vec3::squared_length). -/
def Vec3.squared_length (v : Vec3) : ℚ :=
  v.x * v.x + v.y * v.y + v.z * v.z

/-- Reflection of v about the normal n (src/core/vec.rs, reflect):
v - 2.0 * v.dot(n) * n. -/
def Vec3.reflect (v n : Vec3) : Vec3 :=
  v - Vec3.smul (2 * v.dot n) n

/-! ## Rays (src/core/ray.rs) -/

/-- Ray with origin, (not necessarily unit) direction and a time parameter
(src/core/ray.rs, struct Ray). -/
structure Ray where
  origin : Vec3
  direction : Vec3
  time : ℚ
deriving DecidableEq, Repr

/-- Point at parameter t along a ray (src/core/ray.rs, Ray::point_at):
origin + direction * t. -/
def Ray.point_at (r : Ray) (t : ℚ) : Vec3 :=
  r.origin + Vec3.smul t r.direction

/-- The f32::MAX constant, which is exactly (2^24 - 1) * 2^104. -/
def f32MAX : ℚ := (2 ^ 24 - 1) * 2 ^ 104

/-- Successful intersection record (src/traits/hittable.rs, struct Hit).
The u,v surface parameters are transcendental (acos/atan2) and play no
role in any claim, so they are carried as unconstrained rationals. -/
structure Hit where
  ray : Ray
  t : ℚ
  point : Vec3
  normal : Vec3
  u : ℚ
  v : ℚ
deriving DecidableEq, Repr

/-! ## Mixture PDF weights (src/math/pdf.rs) -/

/-- Single PDF with an associated weight for mixture
(src/math/pdf.rs, struct PDFMix).  The directional distribution itself is
an opaque payload of type alpha; the claims concern only the weights. -/
structure PDFMix (α : Type) where
  pdf : α
  weight : ℚ

/-- Mixture of multiple PDFs (src/math/pdf.rs, struct MixturePDF). -/
structure MixturePDF (α : Type) where
  mixes : List (PDFMix α)

/-- MixturePDF::new: the empty mixture. -/
def MixturePDF.new (α : Type) : MixturePDF α := ⟨[]⟩

/-- MixturePDF::balance_weights: if the total weight is positive, divide
every stored weight by the total; otherwise leave the mixture unchanged. -/
def MixturePDF.balance_weights {α : Type} (m : MixturePDF α) : MixturePDF α :=
  let total := (m.mixes.map (fun mix => mix.weight)).sum
  if 0 < total then
    ⟨m.mixes.map (fun mix => ⟨mix.pdf, mix.weight / total⟩)⟩
  else
    m

/-- MixturePDF::add: push the new component, then rebalance. -/
def MixturePDF.add {α : Type} (m : MixturePDF α) (pdf : α) (weight : ℚ) :
    MixturePDF α :=
  MixturePDF.balance_weights ⟨m.mixes ++ [⟨pdf, weight⟩]⟩

/-- Sum of the stored component weights of a mixture. -/
def MixturePDF.weightSum {α : Type} (m : MixturePDF α) : ℚ :=
  (m.mixes.map (fun mix => mix.weight)).sum

/-- The stored weights, in order. -/
def MixturePDF.weights {α : Type} (m : MixturePDF α) : List ℚ :=
  m.mixes.map (fun mix => mix.weight)

/-- Folding a whole sequence of MixturePDF::add calls. -/
def MixturePDF.addAll {α : Type} (m : MixturePDF α) (ws : List (α × ℚ)) :
    MixturePDF α :=
  ws.foldl (fun acc pw => acc.add pw.1 pw.2) m

/-! ## Skybox world (src/core/world.rs) -/

/-- Background gradient defined by top and bottom colors
(src/core/world.rs, struct World). -/
structure World where
  top_color : Vec3
  bottom_color : Vec3

/-- World::hit from the Hittable impl (src/core/world.rs lines 27-44):
acts only as a background; if t_max is below f32::MAX a closer hit
already exists and the skybox yields none, otherwise it returns a dummy
hit at t = f32::MAX. -/
def World.hit (_w : World) (ray : Ray) (_t_min t_max : ℚ) : Option Hit :=
  if t_max < f32MAX then
    none
  else
    some { ray := ray, t := f32MAX, point := ray.point_at 1,
           normal := ⟨0, 0, 0⟩, u := 0, v := 0 }

/-! ## Sphere intersection (src/geometry/primitives/sphere.rs) -/

/-- The quadratic coefficient a = direction . direction of Sphere::hit. -/
def sphereA (ray : Ray) : ℚ :=
  ray.direction.dot ray.direction

/-- The quadratic coefficient b = oc . direction of Sphere::hit, where
oc = origin - center. -/
def sphereB (center : Vec3) (ray : Ray) : ℚ :=
  (ray.origin - center).dot ray.direction

/-- The quadratic coefficient c = oc . oc - radius^2 of Sphere::hit. -/
def sphereC (center : Vec3) (radius : ℚ) (ray : Ray) : ℚ :=
  (ray.origin - center).dot (ray.origin - center) - radius * radius

/-- The discriminant b*b - a*c of Sphere::hit. -/
def sphereDiscriminant (center : Vec3) (radius : ℚ) (ray : Ray) : ℚ :=
  sphereB center ray * sphereB center ray -
    sphereA ray * sphereC center radius ray

/-- Sphere::hit (src/geometry/primitives/sphere.rs lines 68-93), reduced to
the parametric distance it selects.  The code computes
discriminant.sqrt(); that square root is threaded here as the explicit
parameter s (theorems constrain it by 0 <= s and s * s = discriminant).
The for-loop over signs [-1.0, 1.0] is unrolled: the sign -1 candidate is
tested first, then the sign +1 candidate; a candidate is returned when it
lies strictly inside (t_min, t_max).  The returned Hit record's point,
normal and uv fields are functions of the returned t and do not influence
which root is chosen, so the embedding returns the t field. -/
def sphereHitT (center : Vec3) (radius : ℚ) (ray : Ray) (s t_min t_max : ℚ) :
    Option ℚ :=
  let a := sphereA ray
  let b := sphereB center ray
  let discriminant := sphereDiscriminant center radius ray
  if 0 < discriminant then
    let temp1 := (-b + (-1) * s) / a
    if temp1 < t_max ∧ t_min < temp1 then some temp1
    else
      let temp2 := (-b + 1 * s) / a
      if temp2 < t_max ∧ t_min < temp2 then some temp2
      else none
  else none

/-- The nearest root selection demanded by the specification: among the
candidate intersection parameters, the smallest one lying strictly inside
(t_min, t_max), or none.  (Spec 4.1: hit returns the nearest root of the
intersection equation within the interval, or none.)  The head root wins
when it lies in the interval and beats the best of the tail; the default
of t_max makes the comparison vacuous when the tail has no root in the
interval. -/
def nearestRoot : List ℚ → ℚ → ℚ → Option ℚ
  | [], _, _ => none
  | t :: ts, t_min, t_max =>
    let rest := nearestRoot ts t_min t_max
    if t_min < t ∧ t < t_max ∧ t < rest.getD t_max then some t else rest

/-! ## Refraction and the dielectric material
(src/core/vec.rs refract, src/materials/dielectric.rs) -/

/-- vec::refract (src/core/vec.rs lines 348-357) specialised to an already
unit-length input vector uv (the dielectric always passes
unit_vector(direction), and unit_vector is the identity on unit vectors).
The square root of the discriminant is threaded as the parameter s. -/
def refractUnit (uv n : Vec3) (ni_over_nt s : ℚ) : Option Vec3 :=
  let dt := uv.dot n
  let discriminant := 1 - ni_over_nt * ni_over_nt * (1 - dt * dt)
  if 0 < discriminant then
    some (Vec3.smul ni_over_nt (uv - Vec3.smul dt n) - Vec3.smul s n)
  else none

/-- The scatter-direction choice of dielectric_sample
(src/materials/dielectric.rs lines 29-69).  The argument dir is the unit
incident direction (the code normalises hit.ray.direction before use, and
divides the cosine by the direction length, which is 1 here).  The square
root inside refract is threaded as s, and the uniform random draw
rng.random in [0,1) is threaded as rand.  Total internal reflection and
the Schlick reflectance test both select the mirror reflection. -/
def dielectricScatterDir (refractive_index : ℚ) (dir normal : Vec3)
    (s rand : ℚ) : Vec3 :=
  let reflected := Vec3.reflect dir normal
  let inside := 0 < dir.dot normal
  let outward_normal := if inside then -normal else normal
  let ni_over_nt := if inside then refractive_index else 1 / refractive_index
  let cosine := if inside then refractive_index * dir.dot normal
                else -(dir.dot normal)
  match refractUnit dir outward_normal ni_over_nt s with
  | some refracted =>
    let r0 := ((1 - refractive_index) / (1 + refractive_index)) ^ 2
    let reflect_prob := r0 + (1 - r0) * (1 - cosine) ^ 5
    if rand < reflect_prob then reflected else refracted
  | none => reflected

/-! ## BVH node shape (src/core/bvh.rs, enum BvhNode)

The enum is parametric in the bounding-box payload: construction
(BvhNode::new) stores concrete axis-aligned boxes, while traversal
(BvhNode::hit) consults the box only through its hit test against the ray
and the current interval, so the traversal theorems instantiate the
payload with that boolean test. -/

inductive BvhNode (β : Type) where
  | leaf (bounding_box : β) (index : ℕ)
  | branch (bounding_box : β) (left right : BvhNode β)
deriving Repr

/-- BvhNode::bounding_box: the payload stored at the root of a node. -/
def BvhNode.bbox {β : Type} : BvhNode β → β
  | .leaf b _ => b
  | .branch b _ _ => b

/-- Indices of the renderables referenced at the leaves, left to right. -/
def BvhNode.leafIndices {β : Type} : BvhNode β → List ℕ
  | .leaf _ i => [i]
  | .branch _ l r => l.leafIndices ++ r.leafIndices

/-! ## BVH traversal versus linear scan (src/core/bvh.rs BvhNode::hit,
src/core/scene.rs scene_hit)

For a fixed query ray, each renderable object is abstracted by the list
of parametric distances at which the ray meets it; per the primitive
contract (spec 4.1 and Sphere::hit above) its hit function returns the
nearest such root strictly inside the probed interval.  A branch's
bounding-box test is abstracted as a boolean function of (t_min, t_max);
BoxesSound states the property the builder establishes: a box that
reports a miss prunes only objects with no root in the probed interval. -/

/-- objects[index].hit(ray, t_min, t_max) under the root-list abstraction. -/
def objectHit (objects : List (List ℚ)) (index : ℕ) (t_min t_max : ℚ) :
    Option ℚ :=
  nearestRoot (objects.getD index []) t_min t_max

/-- BvhNode::hit (src/core/bvh.rs lines 61-94): a leaf delegates to its
object; a branch first tests its bounding box, probes the left child with
the incoming interval, tightens t_max to the left hit's distance, then
probes the right child, preferring the right hit when one exists. -/
def bvhHit (objects : List (List ℚ)) :
    BvhNode (ℚ → ℚ → Bool) → ℚ → ℚ → Option ℚ
  | .leaf _ index, t_min, t_max => objectHit objects index t_min t_max
  | .branch bounding_box left right, t_min, t_max =>
    if bounding_box t_min t_max = false then none
    else
      match bvhHit objects left t_min t_max with
      | some left_t =>
        match bvhHit objects right t_min left_t with
        | some right_t => some right_t
        | none => some left_t
      | none => bvhHit objects right t_min t_max

/-- The brute-force loop of scene_hit (src/core/scene.rs lines 331-348):
scan every object, probing with t_max tightened to the closest hit so
far, and keep the latest (hence closest) accepted hit.  The fold state is
the pair (closest_so_far, hit_record). -/
def linearHit (objects : List (List ℚ)) (t_min t_max : ℚ) : Option ℚ :=
  (objects.foldl
    (fun st roots =>
      match nearestRoot roots t_min st.1 with
      | some t => (t, some t)
      | none => st)
    ((t_max, none) : ℚ × Option ℚ)).2

/-- Soundness of the stored box tests: whenever a branch's box test
reports a miss for an interval, no object indexed below that branch has a
root strictly inside that interval.  The builder establishes this by
making every branch box the union of its children's boxes. -/
def BoxesSound (objects : List (List ℚ)) :
    BvhNode (ℚ → ℚ → Bool) → Prop
  | .leaf _ _ => True
  | .branch bounding_box left right =>
    (∀ t_min t_max, bounding_box t_min t_max = false →
      ∀ i ∈ (BvhNode.branch bounding_box left right).leafIndices,
        ∀ t ∈ objects.getD i [], ¬(t_min < t ∧ t < t_max)) ∧
    BoxesSound objects left ∧ BoxesSound objects right

/-- All intersection parameters of the objects referenced below a node,
in left-to-right leaf order. -/
def treeRoots (objects : List (List ℚ)) (tree : BvhNode (ℚ → ℚ → Bool)) :
    List ℚ :=
  (tree.leafIndices.map (fun i => objects.getD i [])).flatten

/-- A two-leaf tree over object indices 0 and 1 whose box tests always
report a hit (used to instantiate the traversal theorems). -/
def demoTree : BvhNode (ℚ → ℚ → Bool) :=
  BvhNode.branch (fun _ _ => true)
    (BvhNode.leaf (fun _ _ => true) 0)
    (BvhNode.leaf (fun _ _ => true) 1)

/-! ## Row-band partition of the concurrent executors
(src/lib.rs raytrace_concurrent lines 122-136,
src/core/acceleration.rs Threaded::render lines 24-36) -/

/-- Pixel-rectangle bounds of one chunk (src/lib.rs, struct ChunkBounds). -/
structure ChunkBounds where
  x_start : ℕ
  x_end : ℕ
  y_start : ℕ
  y_end : ℕ
deriving DecidableEq, Repr

/-- The shared band-height formula (height + threads - 1) / threads. -/
def chunkHeight (height threads : ℕ) : ℕ :=
  (height + threads - 1) / threads

/-- The bands built by raytrace_concurrent (src/lib.rs lines 122-136):
one band per worker index i, with y_start = i * chunk_height and
y_end = min ((i+1) * chunk_height) height, and no guard on y_start. -/
def concurrentBands (width height num_threads : ℕ) : List ChunkBounds :=
  (List.range num_threads).map (fun i =>
    { x_start := 0, x_end := width,
      y_start := i * chunkHeight height num_threads,
      y_end := min ((i + 1) * chunkHeight height num_threads) height })

/-- The spawn loop of Threaded::render: iterate worker indices, breaking
out as soon as y_start reaches the image height. -/
def threadedBandsLoop (width height strip : ℕ) : ℕ → ℕ → List ChunkBounds
  | _, 0 => []
  | i, n + 1 =>
    let y_start := i * strip
    if height ≤ y_start then []
    else
      { x_start := 0, x_end := width, y_start := y_start,
        y_end := min (y_start + strip) height } ::
        threadedBandsLoop width height strip (i + 1) n

/-- The bands built by Threaded::render (src/core/acceleration.rs lines
24-36): same formula, but the loop breaks before emitting any band whose
y_start would reach the height. -/
def threadedBands (width height num_threads : ℕ) : List ChunkBounds :=
  let threads := max num_threads 1
  threadedBandsLoop width height (chunkHeight height threads) 0 threads

/-! ## Chunk assembly (src/lib.rs assemble_chunks lines 241-259) -/

/-- Rendered output of one chunk (src/lib.rs, struct ChunkOutput). -/
structure ChunkOutput where
  bounds : ChunkBounds
  data : List ℕ

/-- copy_from_slice into image[off .. off + src.length]. -/
def writeSlice (img : List ℕ) (off : ℕ) (src : List ℕ) : List ℕ :=
  img.take off ++ src ++ img.drop (off + src.length)

/-- The source slice data[off .. off + len]. -/
def sliceOf (data : List ℕ) (off len : ℕ) : List ℕ :=
  (data.drop off).take len

/-- The per-chunk inner loop of assemble_chunks: for each chunk row
(row_idx, y), copy that row of the chunk's data into the output row
height - 1 - y at column offset x_start * 3. -/
def copyChunk (height width3 : ℕ) (img : List ℕ) (chunk : ChunkOutput) :
    List ℕ :=
  let chunk_row_stride := (chunk.bounds.x_end - chunk.bounds.x_start) * 3
  (List.range (chunk.bounds.y_end - chunk.bounds.y_start)).foldl
    (fun im row_idx =>
      let y := chunk.bounds.y_start + row_idx
      let dest_row := height - 1 - y
      let dest_offset := dest_row * width3 + chunk.bounds.x_start * 3
      let src_offset := row_idx * chunk_row_stride
      writeSlice im dest_offset (sliceOf chunk.data src_offset chunk_row_stride))
    img

/-- assemble_chunks (src/lib.rs lines 241-259): start from a zero-filled
buffer of width * 3 * height bytes and copy every chunk's rows in. -/
def assembleChunks (chunks : List ChunkOutput) (width height : ℕ) : List ℕ :=
  chunks.foldl (copyChunk height (width * 3)) (List.replicate (width * 3 * height) 0)

/-! ## BVH construction (src/core/bvh.rs BvhNode::new, Bvh::new) -/

/-- One axis interval of a bounding box (src/math/interval.rs). -/
structure Interval where
  min : ℚ
  max : ℚ
deriving DecidableEq, Repr

instance : Inhabited Interval := ⟨⟨0, 0⟩⟩

/-- Interval::length: max - min. -/
def Interval.length (i : Interval) : ℚ := i.max - i.min

/-- Axis-aligned bounding box (src/core/bbox.rs, struct BBox). -/
structure BBox where
  x : Interval
  y : Interval
  z : Interval
deriving DecidableEq, Repr

instance : Inhabited BBox := ⟨⟨default, default, default⟩⟩

/-- BBox::union: componentwise min of mins and max of maxes. -/
def BBox.union (a b : BBox) : BBox :=
  ⟨⟨min a.x.min b.x.min, max a.x.max b.x.max⟩,
   ⟨min a.y.min b.y.min, max a.y.max b.y.max⟩,
   ⟨min a.z.min b.z.min, max a.z.max b.z.max⟩⟩

/-- BBox::axis.  The Rust code aborts on an index above 2; longest_axis
only ever produces 0, 1 or 2, so the catch-all arm here is the z axis. -/
def BBox.axis (b : BBox) (i : ℕ) : Interval :=
  match i with
  | 0 => b.x
  | 1 => b.y
  | _ => b.z

/-- BBox::longest_axis: 0 if x is strictly longest, else 1 if y is
strictly longer than z, else 2. -/
def BBox.longest_axis (b : BBox) : ℕ :=
  let x_length := b.x.length
  let y_length := b.y.length
  let z_length := b.z.length
  if x_length > y_length ∧ x_length > z_length then 0
  else if y_length > z_length then 1
  else 2

/-- objects[i].bounding_box() under the box-list abstraction of the
renderable slice (out-of-range indices never occur during construction). -/
def boxOf (objects : List BBox) (i : ℕ) : BBox :=
  objects.getD i default

/-- indices.sort_by(BvhNode::box_compare on the chosen axis): a stable
sort by the minimum coordinate of each object's box on that axis. -/
def sortIndices (objects : List BBox) (axis : ℕ) (indices : List ℕ) :
    List ℕ :=
  indices.mergeSort (fun a b =>
    decide (((boxOf objects a).axis axis).min ≤ ((boxOf objects b).axis axis).min))

/-- iter.map(bounding_box).reduce(union): fold the union over a nonempty
list of boxes (the empty case never occurs; it yields the default box). -/
def reduceUnion : List BBox → BBox
  | [] => default
  | b :: bs => bs.foldl BBox.union b

/-- Model of the &mut ThreadRng handle that BvhNode::new receives and
passes to its recursive calls without ever drawing from it. -/
abbrev RngState := ℕ

/-- BvhNode::new (src/core/bvh.rs lines 18-59).  An empty index list is an
assertion failure in Rust (construction never reaches it); it is mapped
to a junk leaf.  One index yields a leaf; otherwise the union box of the
remaining indices picks the split axis, the indices are stably sorted by
box minimum on that axis, split at the midpoint, and both halves are
built recursively under a branch whose box is the union of the children's
boxes.  The rng handle is threaded exactly as in the source: received and
passed on, never consulted. -/
def bvhNodeNew (objects : List BBox) (rng : RngState) (indices : List ℕ) :
    BvhNode BBox :=
  match indices with
  | [] => BvhNode.leaf default 0
  | [index] => BvhNode.leaf (boxOf objects index) index
  | i0 :: i1 :: rest =>
    let bbox := reduceUnion ((i0 :: i1 :: rest).map (boxOf objects))
    let axis := bbox.longest_axis
    let sorted := sortIndices objects axis (i0 :: i1 :: rest)
    let mid := sorted.length / 2
    let right_indices := sorted.drop mid
    let left_indices := sorted.take mid
    let left := bvhNodeNew objects rng left_indices
    let right := bvhNodeNew objects rng right_indices
    BvhNode.branch (BBox.union left.bbox right.bbox) left right
termination_by indices.length
decreasing_by
  all_goals
    simp only [List.length_take, List.length_drop, sortIndices,
      List.length_mergeSort, List.length_cons]
    omega

/-- Bvh::new (src/core/bvh.rs lines 125-134): build over the index list
0 .. objects.len(). -/
def bvhNew (rng : RngState) (objects : List BBox) : BvhNode BBox :=
  bvhNodeNew objects rng (List.range objects.length)

/-! ## Diffuse sampling combination (src/materials/lambertian.rs) -/

/-- Componentwise color product (src/core/vec.rs, Mul of Vec3 by Vec3). -/
def Vec3.mulv (a b : Vec3) : Vec3 :=
  ⟨a.x * b.x, a.y * b.y, a.z * b.z⟩

instance : Mul Vec3 := ⟨Vec3.mulv⟩

/-- The f32 value of std::f32::consts::PI, exactly 13176795 / 2^22. -/
def f32PI : ℚ := 13176795 / 4194304

/-- f32 division of a color by a scalar.  Dividing by zero produces
NaN/infinity components, which have no rational counterpart; the result
is modelled as none in that case. -/
def vecDivScalar (v : Vec3) (k : ℚ) : Option Vec3 :=
  if k = 0 then none else some ⟨v.x / k, v.y / k, v.z / k⟩

/-- CosinePDF::sample (src/materials/lambertian.rs lines 16-32) evaluated
at the scattered ray.  The scattered ray's direction is built by
Lambertian::sample as unit_vector(scatter_direction), so the argument
out_unit is that unit direction and the renormalisation inside the
function is the identity.  Returns 0 for a negative cosine, else
cosine / pi. -/
def cosinePdfValue (normal out_unit : Vec3) : ℚ :=
  let cosine := normal.dot out_unit
  if cosine < 0 then 0 else cosine / f32PI

/-- The value-combination tail of Lambertian::sample
(src/materials/lambertian.rs lines 97-102): evaluate the cosine PDF at
the scattered ray and return (attenuation * bounce * pdf) / pdf, with no
guard on the divisor. -/
def lambertianCombine (attenuation bounce normal out_unit : Vec3) :
    Option Vec3 :=
  let pdf := cosinePdfValue normal out_unit
  vecDivScalar (Vec3.smul pdf (attenuation * bounce)) pdf

/-! ## Mixture-weight lemmas and claims C3, C9 -/

theorem sum_map_div {α : Type} (l : List α) (f : α → ℚ) (t : ℚ) :
    (l.map (fun x => f x / t)).sum = (l.map f).sum / t := by
  induction l with
  | nil => simp
  | cons a l ih => simp [ih, add_div]

theorem weightSum_add {α : Type} (m : MixturePDF α) (p : α) (w : ℚ) :
    (m.add p w).weightSum =
      if 0 < m.weightSum + w then 1 else m.weightSum + w := by
  classical
  simp only [MixturePDF.add, MixturePDF.balance_weights, MixturePDF.weightSum,
    List.map_append, List.map_cons, List.map_nil, List.sum_append,
    List.sum_cons, List.sum_nil, add_zero]
  by_cases h : 0 < (m.mixes.map fun mix => mix.weight).sum + w
  · have hne : (m.mixes.map fun mix => mix.weight).sum + w ≠ 0 := ne_of_gt h
    rw [if_pos h, if_pos h]
    simp only [List.map_append, List.map_map, List.map_cons, List.map_nil,
      List.sum_append, List.sum_cons, List.sum_nil, add_zero, Function.comp_def]
    rw [sum_map_div, div_add_div_same, div_self hne]
  · rw [if_neg h, if_neg h]
    simp

theorem addAll_weightSum {α : Type} (ws : List (α × ℚ)) (m : MixturePDF α)
    (hm : m.weightSum = 0 ∨ m.weightSum = 1)
    (hnn : ∀ p ∈ ws, 0 ≤ p.2) :
    (m.addAll ws).weightSum =
      if m.weightSum = 1 ∨ ∃ p ∈ ws, 0 < p.2 then 1 else 0 := by
  classical
  induction ws generalizing m with
  | nil =>
    rcases hm with h0 | h1
    · simp [MixturePDF.addAll, h0]
    · simp [MixturePDF.addAll, h1]
  | cons pw ws ih =>
    have hw : 0 ≤ pw.2 := hnn pw (List.mem_cons_self _ _)
    have hnn' : ∀ p ∈ ws, 0 ≤ p.2 := fun p hp => hnn p (List.mem_cons_of_mem _ hp)
    have hstep : (m.add pw.1 pw.2).weightSum =
        if 0 < m.weightSum + pw.2 then 1 else m.weightSum + pw.2 :=
      weightSum_add m pw.1 pw.2
    have haddAll : (m.addAll (pw :: ws)) = ((m.add pw.1 pw.2).addAll ws) := rfl
    rcases hm with h0 | h1
    · by_cases hpos : 0 < pw.2
      · have hsum : (m.add pw.1 pw.2).weightSum = 1 := by
          rw [hstep, h0, zero_add, if_pos hpos]
        rw [haddAll, ih _ (Or.inr hsum) hnn', if_pos (Or.inl hsum)]
        have : ∃ p ∈ pw :: ws, 0 < p.2 := ⟨pw, List.mem_cons_self _ _, hpos⟩
        rw [if_pos (Or.inr this)]
      · have hz : pw.2 = 0 := le_antisymm (not_lt.mp hpos) hw
        have hsum : (m.add pw.1 pw.2).weightSum = 0 := by
          rw [hstep, h0, zero_add, hz]
          norm_num
        rw [haddAll, ih _ (Or.inl hsum) hnn']
        have hcond : ((m.add pw.1 pw.2).weightSum = 1 ∨ ∃ p ∈ ws, 0 < p.2) ↔
            (m.weightSum = 1 ∨ ∃ p ∈ pw :: ws, 0 < p.2) := by
          rw [hsum, h0]
          constructor
          · rintro (h | ⟨p, hp, hplt⟩)
            · norm_num at h
            · exact Or.inr ⟨p, List.mem_cons_of_mem _ hp, hplt⟩
          · rintro (h | ⟨p, hp, hplt⟩)
            · norm_num at h
            · rcases List.mem_cons.mp hp with rfl | hp'
              · exact absurd hplt (by rw [hz]; norm_num)
              · exact Or.inr ⟨p, hp', hplt⟩
        by_cases hc : (m.add pw.1 pw.2).weightSum = 1 ∨ ∃ p ∈ ws, 0 < p.2
        · rw [if_pos hc, if_pos (hcond.mp hc)]
        · rw [if_neg hc, if_neg (fun h => hc (hcond.mpr h))]
    · have hsum : (m.add pw.1 pw.2).weightSum = 1 := by
        rw [hstep, h1, if_pos (by linarith)]
      rw [haddAll, ih _ (Or.inr hsum) hnn', if_pos (Or.inl hsum),
        if_pos (Or.inl h1)]

/-- C3 counterexample: adding a single component with the (non-negative)
weight 0 leaves the total stored weight at 0, not 1: balance_weights
skips normalisation when the total is not positive. -/
theorem C3_counterexample :
    ((MixturePDF.new Unit).add () 0).weightSum ≠ 1 := by
  simp [MixturePDF.new, MixturePDF.add, MixturePDF.balance_weights,
    MixturePDF.weightSum]

/-- C3 (amended): after any sequence of MixturePDF::add calls with
non-negative weights, the sum of the stored component weights is 1 if
some supplied weight was positive, and 0 otherwise (normalisation is
skipped while the total is 0). -/
theorem C3_weight_sum {α : Type} (ws : List (α × ℚ))
    (hnn : ∀ p ∈ ws, 0 ≤ p.2) :
    ((MixturePDF.new α).addAll ws).weightSum =
      if ∃ p ∈ ws, 0 < p.2 then 1 else 0 := by
  have hnew : (MixturePDF.new α).weightSum = 0 := by
    simp [MixturePDF.new, MixturePDF.weightSum]
  rw [addAll_weightSum ws _ (Or.inl hnew) hnn]
  congr 1
  simp [hnew]

/-- Witness for C3: the sequence [add () 2] has non-negative weights with
a positive member, and yields stored-weight sum 1. -/
theorem C3_weight_sum_witness :
    (∀ p ∈ [(((), (2:ℚ)))], 0 ≤ p.2) ∧
      ((MixturePDF.new Unit).addAll [((), 2)]).weightSum = 1 := by
  refine ⟨by norm_num, ?_⟩
  have h := C3_weight_sum (α := Unit) [((), 2)] (by norm_num)
  rw [h, if_pos ⟨((), 2), List.mem_cons_self _ _, by norm_num⟩]

/-- C9: MixturePDF::add renormalises after every insertion, so the
sequence add(p1, w1); add(p2, w2) with w1 > 0, w2 >= 0 always stores the
weights [1/(1+w2), w2/(1+w2)], independent of w1. -/
theorem C9_relative_weights {α : Type} (p1 p2 : α) (w1 w2 : ℚ)
    (h1 : 0 < w1) (h2 : 0 ≤ w2) :
    (((MixturePDF.new α).add p1 w1).add p2 w2).weights =
      [1 / (1 + w2), w2 / (1 + w2)] := by
  have hne : w1 ≠ 0 := ne_of_gt h1
  have step1 : (MixturePDF.new α).add p1 w1 = ⟨[⟨p1, 1⟩]⟩ := by
    simp only [MixturePDF.new, MixturePDF.add, MixturePDF.balance_weights,
      List.nil_append, List.map_cons, List.map_nil, List.sum_cons,
      List.sum_nil, add_zero]
    rw [if_pos h1]
    simp [div_self hne]
  have hpos2 : (0:ℚ) < 1 + w2 := by linarith
  have step2 : ((⟨[⟨p1, 1⟩]⟩ : MixturePDF α).add p2 w2) =
      ⟨[⟨p1, 1 / (1 + w2)⟩, ⟨p2, w2 / (1 + w2)⟩]⟩ := by
    simp only [MixturePDF.add, MixturePDF.balance_weights, List.cons_append,
      List.nil_append, List.map_cons, List.map_nil, List.sum_cons,
      List.sum_nil, add_zero]
    rw [if_pos hpos2]
  rw [step1, step2]
  simp [MixturePDF.weights]

/-- Witness for C9: with w1 = 2, w2 = 3 the stored weights are
[1/4, 3/4]. -/
theorem C9_relative_weights_witness :
    (0:ℚ) < 2 ∧ (0:ℚ) ≤ 3 ∧
      (((MixturePDF.new Unit).add () 2).add () 3).weights =
        [1 / (1 + 3), 3 / (1 + 3)] :=
  ⟨by norm_num, by norm_num,
    C9_relative_weights () () 2 3 (by norm_num) (by norm_num)⟩

/-! ## Claim C10: the skybox never occludes real geometry -/

/-- C10: World::hit returns none whenever the incoming t_max is strictly
below f32::MAX, and any hit it does return has t = f32::MAX, so a
previously found closer hit is always kept. -/
theorem C10_world_hit (w : World) (ray : Ray) (t_min t_max : ℚ) :
    (t_max < f32MAX → w.hit ray t_min t_max = none) ∧
    (∀ h, w.hit ray t_min t_max = some h → h.t = f32MAX) := by
  constructor
  · intro hlt
    simp [World.hit, hlt]
  · intro h hh
    by_cases hlt : t_max < f32MAX
    · simp [World.hit, hlt] at hh
    · simp [World.hit, hlt] at hh
      rw [← hh]

/-- Witness for C10 at a concrete skybox and ray: with t_max = 0 the
skybox yields no hit, and with t_max = f32::MAX the returned dummy hit
has t = f32::MAX. -/
theorem C10_world_hit_witness :
    World.hit ⟨⟨1, 1, 1⟩, ⟨0, 0, 0⟩⟩ ⟨⟨0, 0, 0⟩, ⟨0, 0, 1⟩, 0⟩ 0 0 = none ∧
    (⟨⟨⟨0, 0, 0⟩, ⟨0, 0, 1⟩, 0⟩, f32MAX,
      Ray.point_at ⟨⟨0, 0, 0⟩, ⟨0, 0, 1⟩, 0⟩ 1, ⟨0, 0, 0⟩, 0, 0⟩ : Hit).t =
      f32MAX := by
  constructor
  · exact (C10_world_hit _ _ 0 0).1 (by norm_num [f32MAX])
  · exact (C10_world_hit ⟨⟨1, 1, 1⟩, ⟨0, 0, 0⟩⟩ ⟨⟨0, 0, 0⟩, ⟨0, 0, 1⟩, 0⟩ 0
      f32MAX).2 _ (by simp [World.hit])

/-! ## Claim C2: the diffuse path divides by the pdf unguarded -/

/-- C2 counterexample: at a sample whose evaluated cosine density is 0
(normal opposite the scattered direction), Lambertian::sample still
computes (attenuation * bounce * pdf) / pdf; the 0/0 quotient is
undefined (modelled none) instead of the zero-radiance termination the
claim asserts. -/
theorem C2_counterexample :
    cosinePdfValue ⟨0, 0, 1⟩ ⟨0, 0, -1⟩ = 0 ∧
    lambertianCombine ⟨1, 1, 1⟩ ⟨1, 1, 1⟩ ⟨0, 0, 1⟩ ⟨0, 0, -1⟩ = none := by
  constructor
  · norm_num [cosinePdfValue, Vec3.dot]
  · norm_num [lambertianCombine, cosinePdfValue, Vec3.dot, vecDivScalar]

/-- C2 (amended): the diffuse sampling path uses the evaluated density as
an unguarded divisor: whenever the density is <= 0 (hence 0, the density
is never negative), the returned sample is the undefined 0/0 quotient
(modelled none), not a terminated zero-radiance path. -/
theorem C2_unguarded_divisor (attenuation bounce normal out_unit : Vec3)
    (h : cosinePdfValue normal out_unit ≤ 0) :
    lambertianCombine attenuation bounce normal out_unit = none := by
  have hz : cosinePdfValue normal out_unit = 0 := by
    unfold cosinePdfValue at h ⊢
    by_cases hc : normal.dot out_unit < 0
    · simp [hc]
    · simp only [hc, if_false] at h ⊢
      have hpi : (0:ℚ) < f32PI := by norm_num [f32PI]
      have hnn : 0 ≤ normal.dot out_unit / f32PI :=
        div_nonneg (not_lt.mp hc) (le_of_lt hpi)
      linarith
  unfold lambertianCombine
  rw [hz]
  simp [vecDivScalar]

/-- Witness for C2: the degenerate sample of the counterexample satisfies
the density-nonpositive hypothesis, and the combination is undefined. -/
theorem C2_unguarded_divisor_witness :
    cosinePdfValue ⟨0, 0, 1⟩ ⟨0, 0, -1⟩ ≤ 0 ∧
    lambertianCombine ⟨2, 2, 2⟩ ⟨3, 3, 3⟩ ⟨0, 0, 1⟩ ⟨0, 0, -1⟩ = none := by
  have h : cosinePdfValue ⟨0, 0, 1⟩ ⟨0, 0, -1⟩ ≤ 0 := by
    norm_num [cosinePdfValue, Vec3.dot]
  exact ⟨h, C2_unguarded_divisor ⟨2, 2, 2⟩ ⟨3, 3, 3⟩ _ _ h⟩

/-! ## Vector-algebra unfolding lemmas -/

theorem Vec3.sub_def (a b : Vec3) :
    a - b = ⟨a.x - b.x, a.y - b.y, a.z - b.z⟩ := rfl

theorem Vec3.add_def (a b : Vec3) :
    a + b = ⟨a.x + b.x, a.y + b.y, a.z + b.z⟩ := rfl

theorem Vec3.neg_def (a : Vec3) : -a = ⟨-a.x, -a.y, -a.z⟩ := rfl

theorem Vec3.mul_def (a b : Vec3) :
    a * b = ⟨a.x * b.x, a.y * b.y, a.z * b.z⟩ := rfl

theorem Vec3.dot_neg_right (a b : Vec3) : a.dot (-b) = -(a.dot b) := by
  cases a
  cases b
  simp [Vec3.dot, Vec3.neg_def]
  ring

/-- The vector identity behind index-1 refraction: with the square root of
the discriminant equal to -dt, the refracted direction collapses to the
incident unit direction. -/
theorem smul_sub_smul_cancel (u n : Vec3) (t : ℚ) :
    Vec3.smul 1 (u - Vec3.smul t n) - Vec3.smul (-t) n = u := by
  cases u
  cases n
  simp only [Vec3.smul, Vec3.sub_def, Vec3.mk.injEq]
  refine ⟨by ring, by ring, by ring⟩

/-! ## Claim C4: dielectric with refractive index 1 -/

/-- Rewrite of dielectricScatterDir when refraction succeeds, exposing
the Schlick reflectance test. -/
theorem dielectric_some (refractive_index : ℚ) (dir normal : Vec3)
    (s rand : ℚ) (v : Vec3)
    (h : refractUnit dir
      (if 0 < dir.dot normal then -normal else normal)
      (if 0 < dir.dot normal then refractive_index else 1 / refractive_index)
      s = some v) :
    dielectricScatterDir refractive_index dir normal s rand =
      (if rand < ((1 - refractive_index) / (1 + refractive_index)) ^ 2 +
          (1 - ((1 - refractive_index) / (1 + refractive_index)) ^ 2) *
          (1 - (if 0 < dir.dot normal then refractive_index * dir.dot normal
                else -(dir.dot normal))) ^ 5
        then Vec3.reflect dir normal else v) := by
  unfold dielectricScatterDir
  dsimp only
  rw [h]

/-- With relative index 1 and a strictly negative incidence cosine dt, the
refracted direction is the incident unit direction itself: the
discriminant is dt^2 and its square root is -dt, so the two normal terms
cancel. -/
theorem refract_index_one (uv n : Vec3) (s : ℚ) (hdt : uv.dot n < 0)
    (hsd : s = -(uv.dot n)) : refractUnit uv n 1 s = some uv := by
  unfold refractUnit
  dsimp only
  rw [if_pos (show (0:ℚ) < 1 - 1 * 1 * (1 - uv.dot n * uv.dot n) by
    nlinarith [mul_pos_of_neg_of_neg hdt hdt])]
  rw [hsd]
  exact congrArg some (smul_sub_smul_cancel uv n (uv.dot n))

/-- C4 counterexample: for refractive index 1 the refraction direction is
the incident unit direction, but Schlick reflectance is still sampled:
with incident unit direction (3/5, 0, -4/5) against normal (0, 0, 1) the
reflection probability is (1 - 4/5)^5 = 1/3125 > 0, and the draw 0
selects the mirror reflection (3/5, 0, 4/5), not the incident
direction. -/
theorem C4_counterexample :
    refractUnit ⟨3/5, 0, -4/5⟩ ⟨0, 0, 1⟩ 1 (4/5) = some ⟨3/5, 0, -4/5⟩ ∧
    dielectricScatterDir 1 ⟨3/5, 0, -4/5⟩ ⟨0, 0, 1⟩ (4/5) 0 ≠
      ⟨3/5, 0, -4/5⟩ := by
  constructor
  · norm_num [refractUnit, Vec3.dot, Vec3.smul, Vec3.sub_def]
  · have hd : ¬ (0 < Vec3.dot ⟨3/5, 0, -4/5⟩ ⟨0, 0, 1⟩) := by
      norm_num [Vec3.dot]
    have href : refractUnit ⟨3/5, 0, -4/5⟩ ⟨0, 0, 1⟩ ((1:ℚ)/1) (4/5) =
        some ⟨3/5, 0, -4/5⟩ := by
      norm_num [refractUnit, Vec3.dot, Vec3.smul, Vec3.sub_def]
    rw [dielectric_some 1 ⟨3/5, 0, -4/5⟩ ⟨0, 0, 1⟩ (4/5) 0 ⟨3/5, 0, -4/5⟩
      (by rw [if_neg hd, if_neg hd]; exact href)]
    rw [if_neg hd]
    norm_num [Vec3.dot]
    norm_num [Vec3.reflect, Vec3.dot, Vec3.smul, Vec3.sub_def]

/-- C4 (amended): for a dielectric with refractive index 1, whenever the
incidence cosine is nonzero the refraction direction equals the unit
incident direction, and the sampled scatter direction also equals it for
every random draw at or above the Schlick reflectance (1 - s)^5, where s
is the magnitude of the incidence cosine; draws below that threshold
still select the mirror reflection. -/
theorem C4_index_one_transmits (dir normal : Vec3) (s rand : ℚ)
    (hd : dir.dot normal ≠ 0) (hs : 0 ≤ s)
    (hss : s * s = dir.dot normal * dir.dot normal)
    (hrand : (1 - s) ^ 5 ≤ rand) :
    refractUnit dir (if 0 < dir.dot normal then -normal else normal) 1 s
        = some dir ∧
    dielectricScatterDir 1 dir normal s rand = dir := by
  have habs : s = |dir.dot normal| := by
    have habs2 : |dir.dot normal| * |dir.dot normal| =
        dir.dot normal * dir.dot normal := abs_mul_abs_self _
    have h0 : (s - |dir.dot normal|) * (s + |dir.dot normal|) = 0 := by
      nlinarith
    rcases mul_eq_zero.mp h0 with h | h
    · linarith
    · have hpos : 0 < |dir.dot normal| := abs_pos.mpr hd
      linarith
  rcases lt_or_gt_of_ne hd with hneg | hpos
  · -- ray outside: the outward normal is the surface normal
    have hnif : (if 0 < dir.dot normal then -normal else normal) = normal :=
      if_neg (not_lt.mpr hneg.le)
    have hsd : s = -(dir.dot normal) := by
      rw [habs, abs_of_neg hneg]
    have href : refractUnit dir normal 1 s = some dir :=
      refract_index_one dir normal s hneg hsd
    refine ⟨by rw [hnif]; exact href, ?_⟩
    rw [dielectric_some 1 dir normal s rand dir
      (by rw [if_neg (not_lt.mpr hneg.le), if_neg (not_lt.mpr hneg.le)]
          rw [show (1:ℚ)/1 = 1 by norm_num]
          exact href)]
    rw [if_neg (not_lt.mpr hneg.le)]
    rw [if_neg (show ¬ rand < ((1 - 1) / (1 + 1)) ^ 2 +
        (1 - ((1 - 1) / (1 + 1)) ^ 2) * (1 - -(dir.dot normal)) ^ 5 by
      push_neg
      have : -(dir.dot normal) = s := by rw [hsd]
      rw [this]
      norm_num
      linarith)]
  · -- ray inside: the outward normal is the negated surface normal
    have hnif : (if 0 < dir.dot normal then -normal else normal) = -normal :=
      if_pos hpos
    have hdtneg : dir.dot (-normal) < 0 := by
      rw [Vec3.dot_neg_right]
      linarith
    have hsd : s = -(dir.dot (-normal)) := by
      rw [Vec3.dot_neg_right, neg_neg, habs, abs_of_pos hpos]
    have href : refractUnit dir (-normal) 1 s = some dir :=
      refract_index_one dir (-normal) s hdtneg hsd
    refine ⟨by rw [hnif]; exact href, ?_⟩
    rw [dielectric_some 1 dir normal s rand dir
      (by rw [if_pos hpos, if_pos hpos]; exact href)]
    rw [if_pos hpos]
    rw [if_neg (show ¬ rand < ((1 - 1) / (1 + 1)) ^ 2 +
        (1 - ((1 - 1) / (1 + 1)) ^ 2) * (1 - 1 * dir.dot normal) ^ 5 by
      push_neg
      have hds : dir.dot normal = s := by
        rw [habs, abs_of_pos hpos]
      rw [one_mul, hds]
      norm_num
      linarith)]

/-- Witness for C4 at a concrete incident direction, normal, square root
and draw: the scatter direction is the incident direction itself. -/
theorem C4_index_one_transmits_witness :
    (Vec3.dot ⟨3/5, 0, -4/5⟩ ⟨0, 0, 1⟩ ≠ 0) ∧ (0:ℚ) ≤ 4/5 ∧
    ((4:ℚ)/5 * (4/5) =
      Vec3.dot ⟨3/5, 0, -4/5⟩ ⟨0, 0, 1⟩ * Vec3.dot ⟨3/5, 0, -4/5⟩ ⟨0, 0, 1⟩) ∧
    ((1 - (4:ℚ)/5) ^ 5 ≤ 1/2) ∧
    dielectricScatterDir 1 ⟨3/5, 0, -4/5⟩ ⟨0, 0, 1⟩ (4/5) (1/2) =
      ⟨3/5, 0, -4/5⟩ := by
  have h1 : Vec3.dot ⟨3/5, 0, -4/5⟩ ⟨0, 0, 1⟩ ≠ 0 := by norm_num [Vec3.dot]
  have h2 : (0:ℚ) ≤ 4/5 := by norm_num
  have h3 : (4:ℚ)/5 * (4/5) =
      Vec3.dot ⟨3/5, 0, -4/5⟩ ⟨0, 0, 1⟩ *
        Vec3.dot ⟨3/5, 0, -4/5⟩ ⟨0, 0, 1⟩ := by norm_num [Vec3.dot]
  have h4 : ((1 - (4:ℚ)/5) ^ 5 ≤ 1/2) := by norm_num
  exact ⟨h1, h2, h3, h4,
    (C4_index_one_transmits ⟨3/5, 0, -4/5⟩ ⟨0, 0, 1⟩ (4/5) (1/2)
      h1 h2 h3 h4).2⟩

/-! ## Claim C5: Sphere::hit returns the nearest root in range -/

theorem nearestRoot_nil (t_min t_max : ℚ) :
    nearestRoot [] t_min t_max = none := rfl

theorem nearestRoot_singleton (r t_min t_max : ℚ) :
    nearestRoot [r] t_min t_max =
      if t_min < r ∧ r < t_max then some r else none := by
  simp only [nearestRoot, Option.getD_none]
  by_cases p : t_min < r ∧ r < t_max
  · rw [if_pos ⟨p.1, p.2, p.2⟩, if_pos p]
  · rw [if_neg (fun h => p ⟨h.1, h.2.1⟩), if_neg p]

theorem nearestRoot_pair (r1 r2 t_min t_max : ℚ) (h12 : r1 < r2) :
    nearestRoot [r1, r2] t_min t_max =
      if t_min < r1 ∧ r1 < t_max then some r1
      else if t_min < r2 ∧ r2 < t_max then some r2
      else none := by
  have hrest : nearestRoot [r2] t_min t_max =
      if t_min < r2 ∧ r2 < t_max then some r2 else none :=
    nearestRoot_singleton r2 t_min t_max
  show (let rest := nearestRoot [r2] t_min t_max;
    if t_min < r1 ∧ r1 < t_max ∧ r1 < rest.getD t_max then some r1
    else rest) = _
  rw [hrest]
  by_cases p2 : t_min < r2 ∧ r2 < t_max
  · rw [if_pos p2]
    simp only [Option.getD_some]
    by_cases p1 : t_min < r1 ∧ r1 < t_max
    · rw [if_pos ⟨p1.1, p1.2, h12⟩, if_pos p1]
    · rw [if_neg (fun h => p1 ⟨h.1, h.2.1⟩), if_neg p1]
  · rw [if_neg p2]
    simp only [Option.getD_none]
    by_cases p1 : t_min < r1 ∧ r1 < t_max
    · rw [if_pos ⟨p1.1, p1.2, p1.2⟩, if_pos p1]
    · rw [if_neg (fun h => p1 ⟨h.1, h.2.1⟩), if_neg p1]

/-- C5: when the discriminant is positive, Sphere::hit returns exactly
the nearest quadratic root strictly inside (t_min, t_max): the smaller
root (-b - sqrt(disc)) / a when it is in range, else the larger root
(-b + sqrt(disc)) / a when that one is in range, else none. -/
theorem C5_sphere_hit_nearest (center : Vec3) (radius : ℚ) (ray : Ray)
    (s t_min t_max : ℚ)
    (hdisc : 0 < sphereDiscriminant center radius ray)
    (hs : 0 ≤ s) (hss : s * s = sphereDiscriminant center radius ray) :
    sphereHitT center radius ray s t_min t_max =
      nearestRoot [(-sphereB center ray - s) / sphereA ray,
                   (-sphereB center ray + s) / sphereA ray] t_min t_max := by
  have ha : 0 < sphereA ray := by
    rcases lt_or_eq_of_le (show (0:ℚ) ≤ sphereA ray by
      unfold sphereA Vec3.dot
      nlinarith [mul_self_nonneg ray.direction.x,
        mul_self_nonneg ray.direction.y, mul_self_nonneg ray.direction.z]) with
      h | h
    · exact h
    · exfalso
      have hx : ray.direction.x = 0 := by
        have := h.symm
        unfold sphereA Vec3.dot at this
        nlinarith [mul_self_nonneg ray.direction.x,
          mul_self_nonneg ray.direction.y, mul_self_nonneg ray.direction.z]
      have hy : ray.direction.y = 0 := by
        have := h.symm
        unfold sphereA Vec3.dot at this
        nlinarith [mul_self_nonneg ray.direction.x,
          mul_self_nonneg ray.direction.y, mul_self_nonneg ray.direction.z]
      have hz : ray.direction.z = 0 := by
        have := h.symm
        unfold sphereA Vec3.dot at this
        nlinarith [mul_self_nonneg ray.direction.x,
          mul_self_nonneg ray.direction.y, mul_self_nonneg ray.direction.z]
      have hb : sphereB center ray = 0 := by
        unfold sphereB Vec3.dot
        rw [hx, hy, hz]
        ring
      have ha0 : sphereA ray = 0 := h.symm
      unfold sphereDiscriminant at hdisc
      rw [hb, ha0] at hdisc
      norm_num at hdisc
  have hspos : 0 < s := by
    rcases lt_or_eq_of_le hs with h | h
    · exact h
    · exfalso
      rw [← h] at hss
      norm_num at hss
      rw [← hss] at hdisc
      norm_num at hdisc
  have hr12 : (-sphereB center ray - s) / sphereA ray <
      (-sphereB center ray + s) / sphereA ray := by
    apply div_lt_div_of_pos_right ?_ ha
    linarith
  rw [nearestRoot_pair _ _ _ _ hr12]
  unfold sphereHitT
  dsimp only
  rw [if_pos hdisc]
  have e1 : -sphereB center ray + (-1) * s = -sphereB center ray - s := by ring
  have e2 : -sphereB center ray + 1 * s = -sphereB center ray + s := by ring
  rw [e1, e2]
  by_cases p1 : t_min < (-sphereB center ray - s) / sphereA ray ∧
      (-sphereB center ray - s) / sphereA ray < t_max
  · rw [if_pos ⟨p1.2, p1.1⟩, if_pos p1]
  · rw [if_neg (fun h => p1 ⟨h.2, h.1⟩), if_neg p1]
    by_cases p2 : t_min < (-sphereB center ray + s) / sphereA ray ∧
        (-sphereB center ray + s) / sphereA ray < t_max
    · rw [if_pos ⟨p2.2, p2.1⟩, if_pos p2]
    · rw [if_neg (fun h => p2 ⟨h.2, h.1⟩), if_neg p2]

/-- Witness for C5: the unit sphere at the origin probed from (0,0,-2)
along +z has roots 1 and 3; the hit returns the nearest, t = 1. -/
theorem C5_sphere_hit_nearest_witness :
    0 < sphereDiscriminant ⟨0, 0, 0⟩ 1 ⟨⟨0, 0, -2⟩, ⟨0, 0, 1⟩, 0⟩ ∧
    (0:ℚ) ≤ 1 ∧
    (1:ℚ) * 1 = sphereDiscriminant ⟨0, 0, 0⟩ 1 ⟨⟨0, 0, -2⟩, ⟨0, 0, 1⟩, 0⟩ ∧
    sphereHitT ⟨0, 0, 0⟩ 1 ⟨⟨0, 0, -2⟩, ⟨0, 0, 1⟩, 0⟩ 1 0 10 = some 1 := by
  have h1 : 0 < sphereDiscriminant ⟨0, 0, 0⟩ 1 ⟨⟨0, 0, -2⟩, ⟨0, 0, 1⟩, 0⟩ := by
    norm_num [sphereDiscriminant, sphereA, sphereB, sphereC, Vec3.dot,
      Vec3.sub_def]
  have h3 : (1:ℚ) * 1 =
      sphereDiscriminant ⟨0, 0, 0⟩ 1 ⟨⟨0, 0, -2⟩, ⟨0, 0, 1⟩, 0⟩ := by
    norm_num [sphereDiscriminant, sphereA, sphereB, sphereC, Vec3.dot,
      Vec3.sub_def]
  refine ⟨h1, by norm_num, h3, ?_⟩
  rw [C5_sphere_hit_nearest ⟨0, 0, 0⟩ 1 ⟨⟨0, 0, -2⟩, ⟨0, 0, 1⟩, 0⟩ 1 0 10
    h1 (by norm_num) h3]
  norm_num [sphereA, sphereB, Vec3.dot, Vec3.sub_def, nearestRoot]

/-! ## Claim C8: BVH construction ignores the random source -/

theorem bvhNodeNew_rng_irrelevant (objects : List BBox)
    (rng1 rng2 : RngState) :
    ∀ indices, bvhNodeNew objects rng1 indices =
      bvhNodeNew objects rng2 indices := by
  intro indices
  induction indices using bvhNodeNew.induct objects rng1 with
  | case1 => simp [bvhNodeNew]
  | case2 index => simp [bvhNodeNew]
  | case3 i0 i1 rest bbox axis sorted mid right_indices left_indices ihl ihr =>
    simp only [bvhNodeNew]
    rw [ihl, ihr]

/-- C8: Bvh::new never draws from the random generator it receives: for
any two generator states the constructed trees are structurally
identical (same leaf indices, same splits, same bounding boxes), because
the split axis comes from the union box and the ordering from a stable
sort by minimum box coordinate. -/
theorem C8_bvh_deterministic (objects : List BBox) (rng1 rng2 : RngState) :
    bvhNew rng1 objects = bvhNew rng2 objects :=
  bvhNodeNew_rng_irrelevant objects rng1 rng2 (List.range objects.length)

/-! ## Claim C6: the row-band partition of the concurrent executors -/

theorem chunkHeight_pos (height threads : ℕ) (hh : 1 ≤ height)
    (ht : 1 ≤ threads) : 1 ≤ chunkHeight height threads := by
  unfold chunkHeight
  rw [Nat.le_div_iff_mul_le ht]
  omega

theorem height_le_threads_mul (height threads : ℕ) (ht : 1 ≤ threads) :
    height ≤ threads * chunkHeight height threads := by
  unfold chunkHeight
  have e := Nat.div_add_mod (height + threads - 1) threads
  have hr : (height + threads - 1) % threads < threads :=
    Nat.mod_lt _ (by omega)
  omega

theorem threadedBandsLoop_mem (width height strip : ℕ) :
    ∀ (n i : ℕ) (b : ChunkBounds),
      b ∈ threadedBandsLoop width height strip i n ↔
        ∃ k, k < n ∧ (i + k) * strip < height ∧
          b = ⟨0, width, (i + k) * strip,
                min ((i + k) * strip + strip) height⟩ := by
  intro n
  induction n with
  | zero => simp [threadedBandsLoop]
  | succ n ih =>
    intro i b
    simp only [threadedBandsLoop]
    by_cases hbreak : height ≤ i * strip
    · rw [if_pos hbreak]
      simp only [List.not_mem_nil, false_iff, not_exists]
      rintro k ⟨hk, hlt, rfl⟩
      have : i * strip ≤ (i + k) * strip :=
        Nat.mul_le_mul_right strip (by omega)
      omega
    · rw [if_neg hbreak]
      push_neg at hbreak
      simp only [List.mem_cons, ih]
      constructor
      · rintro (rfl | ⟨k, hk, hlt, rfl⟩)
        · exact ⟨0, by omega, by simpa using hbreak, by simp⟩
        · refine ⟨k + 1, by omega, ?_, ?_⟩
          · rw [show i + (k + 1) = i + 1 + k from by omega]
            exact hlt
          · rw [show i + (k + 1) = i + 1 + k from by omega]
      · rintro ⟨k, hk, hlt, rfl⟩
        cases k with
        | zero => left; simp
        | succ k =>
          right
          refine ⟨k, by omega, ?_, ?_⟩
          · rw [show i + 1 + k = i + (k + 1) from by omega]
            exact hlt
          · rw [show i + 1 + k = i + (k + 1) from by omega]

theorem threadedBandsLoop_chain (width height strip : ℕ) :
    ∀ (n i : ℕ),
      List.Chain' (fun a b => a.y_end = b.y_start)
        (threadedBandsLoop width height strip i n) := by
  intro n
  induction n with
  | zero => intro i; simp [threadedBandsLoop]
  | succ n ih =>
    intro i
    simp only [threadedBandsLoop]
    by_cases hbreak : height ≤ i * strip
    · rw [if_pos hbreak]; exact List.chain'_nil
    · rw [if_neg hbreak]
      rw [List.chain'_cons']
      refine ⟨?_, ih (i + 1)⟩
      intro b hb
      cases n with
      | zero => simp [threadedBandsLoop] at hb
      | succ n =>
        simp only [threadedBandsLoop] at hb
        by_cases hb2 : height ≤ (i + 1) * strip
        · rw [if_pos hb2] at hb
          simp at hb
        · rw [if_neg hb2] at hb
          push_neg at hb2
          simp only [Option.mem_def, List.head?_cons, Option.some.injEq] at hb
          rw [← hb]
          show min (i * strip + strip) height = (i + 1) * strip
          have : i * strip + strip = (i + 1) * strip := by ring
          rw [this]
          exact min_eq_left (le_of_lt hb2)

theorem threadedBandsLoop_pairwise (width height strip : ℕ) :
    ∀ (n i : ℕ),
      List.Pairwise (fun a b => a.y_end ≤ b.y_start)
        (threadedBandsLoop width height strip i n) := by
  intro n
  induction n with
  | zero => intro i; simp [threadedBandsLoop]
  | succ n ih =>
    intro i
    simp only [threadedBandsLoop]
    by_cases hbreak : height ≤ i * strip
    · rw [if_pos hbreak]; exact List.Pairwise.nil
    · rw [if_neg hbreak]
      refine List.Pairwise.cons ?_ (ih (i + 1))
      intro b hb
      rcases (threadedBandsLoop_mem width height strip n (i + 1) b).mp hb
        with ⟨k, _, _, rfl⟩
      show min (i * strip + strip) height ≤ (i + 1 + k) * strip
      have h1 : i * strip + strip = (i + 1) * strip := by ring
      have h2 : (i + 1) * strip ≤ (i + 1 + k) * strip :=
        Nat.mul_le_mul_right strip (by omega)
      calc min (i * strip + strip) height ≤ i * strip + strip := min_le_left _ _
        _ = (i + 1) * strip := h1
        _ ≤ (i + 1 + k) * strip := h2

/-- C6 counterexample: with image height 5 and 4 workers,
chunk_height = 2 and raytrace_concurrent emits the band with
y_start = 6, y_end = 5, violating y_start <= y_end (and its third band,
of height 1, is not the last band). -/
theorem C6_counterexample :
    ∃ b ∈ concurrentBands 1 5 4, b.y_end < b.y_start := by
  decide

/-- C6 (amended): for every height >= 1 and worker count >= 1, the bands
of Threaded::render (which breaks before any band with y_start >= height)
have y_start < y_end, are contiguous and pairwise disjoint, cover exactly
the rows 0..height, and each has height ceil(height/workers) except a
possibly-shorter band ending at the image height; the bands of
raytrace_concurrent are exactly these plus degenerate trailing bands
(y_start >= height) whose y_end does not exceed their y_start. -/
theorem C6_band_partition (width height threads : ℕ) (hh : 1 ≤ height)
    (ht : 1 ≤ threads) :
    (∀ b ∈ threadedBands width height threads, b.y_start < b.y_end) ∧
    List.Chain' (fun a b => a.y_end = b.y_start)
      (threadedBands width height threads) ∧
    List.Pairwise (fun a b => a.y_end ≤ b.y_start)
      (threadedBands width height threads) ∧
    (∀ y, y < height ↔ ∃ b ∈ threadedBands width height threads,
      b.y_start ≤ y ∧ y < b.y_end) ∧
    (∀ b ∈ threadedBands width height threads,
      b.y_end - b.y_start = chunkHeight height threads ∨ b.y_end = height) ∧
    (∀ b ∈ concurrentBands width height threads,
      b.y_start < height → b ∈ threadedBands width height threads) ∧
    (∀ b ∈ concurrentBands width height threads,
      height ≤ b.y_start → b.y_end ≤ b.y_start) := by
  have hmax : max threads 1 = threads := Nat.max_eq_left ht
  have hloop : threadedBands width height threads =
      threadedBandsLoop width height (chunkHeight height threads) 0 threads := by
    unfold threadedBands
    rw [hmax]
  have hstrip : 1 ≤ chunkHeight height threads := chunkHeight_pos _ _ hh ht
  have hcover : height ≤ threads * chunkHeight height threads :=
    height_le_threads_mul _ _ ht
  set strip := chunkHeight height threads with hstripdef
  have hmem : ∀ b, b ∈ threadedBands width height threads ↔
      ∃ k, k < threads ∧ k * strip < height ∧
        b = ⟨0, width, k * strip, min (k * strip + strip) height⟩ := by
    intro b
    rw [hloop]
    rw [threadedBandsLoop_mem width height strip threads 0 b]
    simp only [Nat.zero_add]
  refine ⟨?_, ?_, ?_, ?_, ?_, ?_, ?_⟩
  · intro b hb
    rcases (hmem b).mp hb with ⟨k, _, hk2, rfl⟩
    show k * strip < min (k * strip + strip) height
    exact lt_min (by omega) hk2
  · rw [hloop]; exact threadedBandsLoop_chain width height strip threads 0
  · rw [hloop]; exact threadedBandsLoop_pairwise width height strip threads 0
  · intro y
    constructor
    · intro hy
      have hsp : 0 < strip := hstrip
      have hdm := Nat.div_add_mod y strip
      have hmod : y % strip < strip := Nat.mod_lt _ hsp
      have hle : y / strip * strip ≤ y := Nat.div_mul_le_self y strip
      have hcomm : y / strip * strip = strip * (y / strip) := Nat.mul_comm _ _
      have hklt : y / strip < threads := by
        by_contra hcon
        push_neg at hcon
        have hmul : threads * strip ≤ y / strip * strip :=
          Nat.mul_le_mul_right strip hcon
        have hcomm2 : threads * strip = strip * threads := Nat.mul_comm _ _
        omega
      have hlt2 : y < y / strip * strip + strip := by omega
      exact ⟨⟨0, width, y / strip * strip,
        min (y / strip * strip + strip) height⟩,
        (hmem _).mpr ⟨y / strip, hklt, lt_of_le_of_lt hle hy, rfl⟩,
        hle, lt_min hlt2 hy⟩
    · rintro ⟨b, hb, hyb1, hyb2⟩
      rcases (hmem b).mp hb with ⟨k, _, _, rfl⟩
      have hy2 : y < min (k * strip + strip) height := hyb2
      exact lt_of_lt_of_le hy2 (min_le_right _ _)
  · intro b hb
    rcases (hmem b).mp hb with ⟨k, _, hk2, rfl⟩
    by_cases hfit : k * strip + strip ≤ height
    · left
      show min (k * strip + strip) height - k * strip = strip
      rw [min_eq_left hfit]
      omega
    · right
      show min (k * strip + strip) height = height
      exact min_eq_right (by omega)
  · intro b hb hstart
    simp only [concurrentBands, List.mem_map, List.mem_range] at hb
    rcases hb with ⟨k, hk, rfl⟩
    refine (hmem _).mpr ⟨k, hk, hstart, ?_⟩
    have : (k + 1) * chunkHeight height threads =
        k * chunkHeight height threads + chunkHeight height threads := by ring
    rw [this]
  · intro b hb hstart
    simp only [concurrentBands, List.mem_map, List.mem_range] at hb
    rcases hb with ⟨k, hk, rfl⟩
    show min ((k + 1) * chunkHeight height threads) height ≤
      k * chunkHeight height threads
    calc min ((k + 1) * chunkHeight height threads) height ≤ height :=
        min_le_right _ _
      _ ≤ k * chunkHeight height threads := hstart

/-- Witness for C6 at height 5 with 4 workers: Threaded::render emits
exactly the three valid bands [0,2), [2,4), [4,5). -/
theorem C6_band_partition_witness :
    (1 ≤ 5 ∧ 1 ≤ 4) ∧
    (∀ b ∈ threadedBands 1 5 4, b.y_start < b.y_end) ∧
    (∀ y, y < 5 ↔ ∃ b ∈ threadedBands 1 5 4, b.y_start ≤ y ∧ y < b.y_end) := by
  have h := C6_band_partition 1 5 4 (by norm_num) (by norm_num)
  exact ⟨⟨by norm_num, by norm_num⟩, h.1, h.2.2.2.1⟩

/-! ## Claim C1: BVH traversal equals the brute-force linear scan -/

theorem nearestRoot_eq_none_iff (l : List ℚ) (a b : ℚ) :
    nearestRoot l a b = none ↔ ∀ t ∈ l, ¬(a < t ∧ t < b) := by
  induction l with
  | nil => simp [nearestRoot]
  | cons x ts ih =>
    simp only [nearestRoot]
    constructor
    · intro h
      by_cases hc : a < x ∧ x < b ∧ x < (nearestRoot ts a b).getD b
      · rw [if_pos hc] at h
        exact absurd h (by simp)
      · rw [if_neg hc] at h
        intro t ht
        rcases List.mem_cons.mp ht with rfl | ht'
        · rintro ⟨hat, htb⟩
          rw [h] at hc
          exact hc ⟨hat, htb, by simpa using htb⟩
        · exact ih.mp h t ht'
    · intro hall
      have hrest : nearestRoot ts a b = none :=
        ih.mpr (fun t ht => hall t (List.mem_cons_of_mem _ ht))
      rw [hrest]
      simp only [Option.getD_none]
      rw [if_neg (fun hc => hall x (List.mem_cons_self _ _) ⟨hc.1, hc.2.1⟩)]

theorem nearestRoot_eq_some_iff (l : List ℚ) (a b t : ℚ) :
    nearestRoot l a b = some t ↔
      t ∈ l ∧ a < t ∧ t < b ∧ ∀ u ∈ l, a < u → u < b → t ≤ u := by
  induction l generalizing t with
  | nil => simp [nearestRoot]
  | cons x ts ih =>
    simp only [nearestRoot]
    cases hrest : nearestRoot ts a b with
    | none =>
      have hex : ∀ u ∈ ts, ¬(a < u ∧ u < b) :=
        (nearestRoot_eq_none_iff ts a b).mp hrest
      simp only [Option.getD_none]
      by_cases hc : a < x ∧ x < b ∧ x < b
      · rw [if_pos hc]
        constructor
        · intro h
          obtain rfl : x = t := Option.some.inj h
          refine ⟨List.mem_cons_self _ _, hc.1, hc.2.1, ?_⟩
          intro u hu hau hub
          rcases List.mem_cons.mp hu with rfl | hu'
          · exact le_refl _
          · exact absurd ⟨hau, hub⟩ (hex u hu')
        · rintro ⟨hmem, hat, htb, _⟩
          rcases List.mem_cons.mp hmem with rfl | hmem'
          · rfl
          · exact absurd ⟨hat, htb⟩ (hex t hmem')
      · rw [if_neg hc]
        constructor
        · intro h
          exact absurd h (by simp)
        · rintro ⟨hmem, hat, htb, _⟩
          rcases List.mem_cons.mp hmem with rfl | hmem'
          · exact absurd ⟨hat, htb, htb⟩ hc
          · exact absurd ⟨hat, htb⟩ (hex t hmem')
    | some m =>
      obtain ⟨hmts, ham, hmb, hminm⟩ := (ih m).mp hrest
      simp only [Option.getD_some]
      by_cases hc : a < x ∧ x < b ∧ x < m
      · rw [if_pos hc]
        constructor
        · intro h
          obtain rfl : x = t := Option.some.inj h
          refine ⟨List.mem_cons_self _ _, hc.1, hc.2.1, ?_⟩
          intro u hu hau hub
          rcases List.mem_cons.mp hu with rfl | hu'
          · exact le_refl _
          · exact le_trans (le_of_lt hc.2.2) (hminm u hu' hau hub)
        · rintro ⟨hmem, hat, htb, hmin⟩
          have htx : t ≤ x := hmin x (List.mem_cons_self _ _) hc.1 hc.2.1
          rcases List.mem_cons.mp hmem with rfl | hmem'
          · rfl
          · exfalso
            have hmt : m ≤ t := hminm t hmem' hat htb
            have : x < t := lt_of_lt_of_le hc.2.2 hmt
            exact absurd htx (not_le.mpr this)
      · rw [if_neg hc]
        constructor
        · intro h
          obtain rfl : m = t := Option.some.inj h
          refine ⟨List.mem_cons_of_mem _ hmts, ham, hmb, ?_⟩
          intro u hu hau hub
          rcases List.mem_cons.mp hu with rfl | hu'
          · exact le_of_not_lt (fun hlt => hc ⟨hau, hub, hlt⟩)
          · exact hminm u hu' hau hub
        · rintro ⟨hmem, hat, htb, hmin⟩
          have htm : t ≤ m := hmin m (List.mem_cons_of_mem _ hmts) ham hmb
          rcases List.mem_cons.mp hmem with rfl | hmem'
          · have hmt : m ≤ t := le_of_not_lt (fun hlt => hc ⟨hat, htb, hlt⟩)
            rw [le_antisymm htm hmt]
          · have hmt : m ≤ t := hminm t hmem' hat htb
            rw [le_antisymm htm hmt]

theorem nearestRoot_ext (l1 l2 : List ℚ) (a b : ℚ)
    (h : ∀ t, t ∈ l1 ↔ t ∈ l2) :
    nearestRoot l1 a b = nearestRoot l2 a b := by
  cases h1 : nearestRoot l1 a b with
  | none =>
    exact ((nearestRoot_eq_none_iff l2 a b).mpr
      (fun t ht => (nearestRoot_eq_none_iff l1 a b).mp h1 t ((h t).mpr ht))).symm
  | some t =>
    obtain ⟨hmem, hat, htb, hmin⟩ := (nearestRoot_eq_some_iff l1 a b t).mp h1
    exact ((nearestRoot_eq_some_iff l2 a b t).mpr
      ⟨(h t).mp hmem, hat, htb,
        fun u hu hau hub => hmin u ((h u).mpr hu) hau hub⟩).symm

theorem nearestRoot_append (A B : List ℚ) (a b : ℚ) :
    nearestRoot (A ++ B) a b =
      match nearestRoot A a b with
      | some l_t =>
        match nearestRoot B a l_t with
        | some r_t => some r_t
        | none => some l_t
      | none => nearestRoot B a b := by
  cases hA : nearestRoot A a b with
  | none =>
    have hAex := (nearestRoot_eq_none_iff A a b).mp hA
    show nearestRoot (A ++ B) a b = nearestRoot B a b
    cases hB : nearestRoot B a b with
    | none =>
      have hBex := (nearestRoot_eq_none_iff B a b).mp hB
      refine (nearestRoot_eq_none_iff _ a b).mpr ?_
      intro t ht
      rcases List.mem_append.mp ht with h | h
      · exact hAex t h
      · exact hBex t h
    | some t =>
      obtain ⟨htB, hat, htb, hmin⟩ := (nearestRoot_eq_some_iff B a b t).mp hB
      refine (nearestRoot_eq_some_iff _ a b t).mpr
        ⟨List.mem_append_right _ htB, hat, htb, ?_⟩
      intro u hu hau hub
      rcases List.mem_append.mp hu with h | h
      · exact absurd ⟨hau, hub⟩ (hAex u h)
      · exact hmin u h hau hub
  | some left_t =>
    obtain ⟨hlA, hal, hlb, hminA⟩ :=
      (nearestRoot_eq_some_iff A a b left_t).mp hA
    show nearestRoot (A ++ B) a b =
      match nearestRoot B a left_t with
      | some r_t => some r_t
      | none => some left_t
    cases hB : nearestRoot B a left_t with
    | none =>
      have hBex := (nearestRoot_eq_none_iff B a left_t).mp hB
      show nearestRoot (A ++ B) a b = some left_t
      refine (nearestRoot_eq_some_iff _ a b left_t).mpr
        ⟨List.mem_append_left _ hlA, hal, hlb, ?_⟩
      intro u hu hau hub
      rcases List.mem_append.mp hu with h | h
      · exact hminA u h hau hub
      · by_contra hlt
        push_neg at hlt
        exact hBex u h ⟨hau, hlt⟩
    | some right_t =>
      obtain ⟨hrB, har, hrl, hminB⟩ :=
        (nearestRoot_eq_some_iff B a left_t right_t).mp hB
      show nearestRoot (A ++ B) a b = some right_t
      refine (nearestRoot_eq_some_iff _ a b right_t).mpr
        ⟨List.mem_append_right _ hrB, har, lt_trans hrl hlb, ?_⟩
      intro u hu hau hub
      rcases List.mem_append.mp hu with h | h
      · exact le_trans (le_of_lt hrl) (hminA u h hau hub)
      · by_cases hul : u < left_t
        · exact hminB u h hau hul
        · exact le_trans (le_of_lt hrl) (le_of_not_lt hul)

theorem treeRoots_branch (objects : List (List ℚ))
    (box : ℚ → ℚ → Bool) (l r : BvhNode (ℚ → ℚ → Bool)) :
    treeRoots objects (BvhNode.branch box l r) =
      treeRoots objects l ++ treeRoots objects r := by
  simp [treeRoots, BvhNode.leafIndices, List.flatten_append]

theorem bvhHit_eq_nearestRoot (objects : List (List ℚ)) :
    ∀ (tree : BvhNode (ℚ → ℚ → Bool)) (a b : ℚ),
      BoxesSound objects tree →
      bvhHit objects tree a b = nearestRoot (treeRoots objects tree) a b := by
  intro tree
  induction tree with
  | leaf box i =>
    intro a b _
    show objectHit objects i a b = _
    unfold objectHit
    apply nearestRoot_ext
    intro t
    simp [treeRoots, BvhNode.leafIndices]
  | branch box l r ihl ihr =>
    intro a b hsound
    obtain ⟨hbox, hsl, hsr⟩ := hsound
    show (if box a b = false then none else _) = _
    by_cases hb : box a b = false
    · rw [if_pos hb]
      symm
      refine (nearestRoot_eq_none_iff _ a b).mpr ?_
      intro t ht
      rcases List.mem_flatten.mp ht with ⟨roots, hroots, htroots⟩
      rcases List.mem_map.mp hroots with ⟨i, hi, rfl⟩
      exact hbox a b hb i hi t htroots
    · rw [if_neg hb]
      rw [treeRoots_branch, nearestRoot_append]
      rw [ihl a b hsl]
      cases hA : nearestRoot (treeRoots objects l) a b with
      | none => exact ihr a b hsr
      | some left_t =>
        show (match bvhHit objects r a left_t with
          | some right_t => some right_t
          | none => some left_t) = _
        rw [ihr a left_t hsr]

theorem linearFold_eq (a : ℚ) :
    ∀ (objs : List (List ℚ)) (c : ℚ) (rec : Option ℚ),
      objs.foldl
        (fun st roots =>
          match nearestRoot roots a st.1 with
          | some t => (t, some t)
          | none => st) ((c, rec) : ℚ × Option ℚ) =
      match nearestRoot objs.flatten a c with
      | some u => (u, some u)
      | none => (c, rec) := by
  intro objs
  induction objs with
  | nil => intro c rec; rfl
  | cons roots rest ih =>
    intro c rec
    rw [List.foldl_cons, List.flatten_cons, nearestRoot_append]
    dsimp only
    cases h1 : nearestRoot roots a c with
    | none => exact ih c rec
    | some t =>
      show List.foldl
          (fun st roots =>
            match nearestRoot roots a st.1 with
            | some t => (t, some t)
            | none => st) ((t, some t) : ℚ × Option ℚ) rest =
        match (match nearestRoot rest.flatten a t with
          | some r_t => some r_t
          | none => some t) with
        | some u => (u, some u)
        | none => (c, rec)
      rw [ih t (some t)]
      cases h2 : nearestRoot rest.flatten a t with
      | none => rfl
      | some u => rfl

theorem linearHit_eq_nearestRoot (objects : List (List ℚ)) (a b : ℚ) :
    linearHit objects a b = nearestRoot objects.flatten a b := by
  unfold linearHit
  rw [linearFold_eq a objects b none]
  cases h : nearestRoot objects.flatten a b with
  | none => rfl
  | some u => rfl

/-- C1: under the invariants the builder establishes — the leaves
reference exactly the scene's object indices, and a bounding box that
reports a miss only prunes objects with no intersection parameter in the
probed interval — BVH traversal returns exactly the same nearest-hit
parameter as the brute-force linear scan of scene_hit that keeps the
closest intersection. -/
theorem C1_bvh_eq_linear (objects : List (List ℚ))
    (tree : BvhNode (ℚ → ℚ → Bool)) (t_min t_max : ℚ)
    (hsound : BoxesSound objects tree)
    (hperm : tree.leafIndices.Perm (List.range objects.length)) :
    bvhHit objects tree t_min t_max = linearHit objects t_min t_max := by
  rw [bvhHit_eq_nearestRoot objects tree t_min t_max hsound,
    linearHit_eq_nearestRoot objects t_min t_max]
  apply nearestRoot_ext
  intro t
  constructor
  · intro ht
    rcases List.mem_flatten.mp ht with ⟨roots, hroots, htroots⟩
    rcases List.mem_map.mp hroots with ⟨i, hi, rfl⟩
    have hilt : i < objects.length := by
      have := hperm.mem_iff.mp hi
      simpa using this
    have : objects.getD i [] ∈ objects := by
      rw [List.getD_eq_getElem objects [] hilt]
      exact List.getElem_mem hilt
    exact List.mem_flatten.mpr ⟨objects.getD i [], this, htroots⟩
  · intro ht
    rcases List.mem_flatten.mp ht with ⟨roots, hroots, htroots⟩
    rcases List.mem_iff_getElem.mp hroots with ⟨i, hilt, rfl⟩
    refine List.mem_flatten.mpr ⟨objects.getD i [], ?_, ?_⟩
    · refine List.mem_map.mpr ⟨i, ?_, rfl⟩
      exact hperm.mem_iff.mpr (by simpa using hilt)
    · rw [List.getD_eq_getElem objects [] hilt]
      exact htroots

/-- Witness for C1: two singleton objects with roots 1 and 2 under a
two-leaf tree with always-hit boxes; traversal and linear scan agree. -/
theorem C1_bvh_eq_linear_witness :
    BoxesSound [[1], [2]] demoTree ∧
    demoTree.leafIndices.Perm (List.range 2) ∧
    bvhHit [[1], [2]] demoTree 0 10 = linearHit [[1], [2]] 0 10 := by
  have hsound : BoxesSound [[1], [2]] demoTree := by
    refine ⟨?_, trivial, trivial⟩
    intro t_min t_max hfalse
    exact absurd hfalse (by simp)
  have hperm : demoTree.leafIndices.Perm (List.range 2) := by
    have : demoTree.leafIndices = [0, 1] := rfl
    rw [this]
    have : List.range 2 = [0, 1] := rfl
    rw [this]
  exact ⟨hsound, hperm,
    C1_bvh_eq_linear [[1], [2]] demoTree 0 10 hsound hperm⟩

/-! ## Claim C7: assemble_chunks layout -/

theorem sliceOf_length (data : List ℕ) (off len : ℕ) :
    (sliceOf data off len).length = min len (data.length - off) := by
  simp [sliceOf]

theorem sliceOf_length_le (data : List ℕ) (off len : ℕ) :
    (sliceOf data off len).length ≤ len := by
  rw [sliceOf_length]
  exact min_le_left _ _

theorem sliceOf_length_full (data : List ℕ) (off len : ℕ)
    (h : off + len ≤ data.length) :
    (sliceOf data off len).length = len := by
  rw [sliceOf_length]
  omega

theorem sliceOf_getElem (data : List ℕ) (off len k : ℕ) (hk : k < len) :
    (sliceOf data off len)[k]? = data[off + k]? := by
  unfold sliceOf
  rw [List.getElem?_take, if_pos hk, List.getElem?_drop]

theorem writeSlice_length (img src : List ℕ) (off : ℕ)
    (h : off + src.length ≤ img.length) :
    (writeSlice img off src).length = img.length := by
  unfold writeSlice
  simp only [List.length_append, List.length_take, List.length_drop]
  omega

theorem writeSlice_getElem_outside (img src : List ℕ) (off i : ℕ)
    (h : off + src.length ≤ img.length)
    (hout : i < off ∨ off + src.length ≤ i) :
    (writeSlice img off src)[i]? = img[i]? := by
  unfold writeSlice
  have htl : (List.take off img).length = off := by
    rw [List.length_take]
    omega
  have hts : (List.take off img ++ src).length = off + src.length := by
    rw [List.length_append, htl]
  rcases hout with hlt | hge
  · rw [List.getElem?_append_left (by rw [hts]; omega)]
    rw [List.getElem?_append_left (by rw [htl]; omega)]
    rw [List.getElem?_take, if_pos hlt]
  · rw [List.getElem?_append_right (by rw [hts]; omega), hts]
    rw [List.getElem?_drop]
    rw [show off + src.length + (i - (off + src.length)) = i from by omega]

theorem writeSlice_getElem_inside (img src : List ℕ) (off k : ℕ)
    (h : off + src.length ≤ img.length) (hk : k < src.length) :
    (writeSlice img off src)[off + k]? = src[k]? := by
  unfold writeSlice
  have htl : (List.take off img).length = off := by
    rw [List.length_take]
    omega
  have hts : (List.take off img ++ src).length = off + src.length := by
    rw [List.length_append, htl]
  rw [List.getElem?_append_left (by rw [hts]; omega)]
  rw [List.getElem?_append_right (by rw [htl]; omega), htl]
  rw [show off + k - off = k from by omega]

theorem copyRows_length (height width3 xs ys stride : ℕ) (data : List ℕ) :
    ∀ (n : ℕ) (img : List ℕ), img.length = width3 * height →
      ys + n ≤ height → xs * 3 + stride ≤ width3 →
      ((List.range n).foldl
        (fun im row_idx => writeSlice im
          ((height - 1 - (ys + row_idx)) * width3 + xs * 3)
          (sliceOf data (row_idx * stride) stride)) img).length =
        width3 * height := by
  intro n
  induction n with
  | zero => intro img h _ _; simpa using h
  | succ n ih =>
    intro img himg hrow hx
    rw [List.range_succ, List.foldl_append, List.foldl_cons, List.foldl_nil]
    have hlen := ih img himg (by omega) hx
    have hslice := sliceOf_length_le data (n * stride) stride
    have hd : height - 1 - (ys + n) + 1 ≤ height := by omega
    have hmul : (height - 1 - (ys + n) + 1) * width3 ≤ height * width3 :=
      Nat.mul_le_mul_right _ hd
    have hexp : (height - 1 - (ys + n) + 1) * width3 =
        (height - 1 - (ys + n)) * width3 + width3 := by ring
    have hcomm : width3 * height = height * width3 := Nat.mul_comm _ _
    exact (writeSlice_length _ _ _ (by rw [hlen]; omega)).trans hlen

theorem copyRows_untouched (height width3 xs ys stride : ℕ) (data : List ℕ)
    (i : ℕ) :
    ∀ (n : ℕ) (img : List ℕ), img.length = width3 * height →
      ys + n ≤ height → xs * 3 + stride ≤ width3 →
      (∀ k < n, i / width3 ≠ height - 1 - (ys + k)) →
      ((List.range n).foldl
        (fun im row_idx => writeSlice im
          ((height - 1 - (ys + row_idx)) * width3 + xs * 3)
          (sliceOf data (row_idx * stride) stride)) img)[i]? = img[i]? := by
  intro n
  induction n with
  | zero => intro img _ _ _ _; rfl
  | succ n ih =>
    intro img himg hrow hx hmiss
    rw [List.range_succ, List.foldl_append, List.foldl_cons, List.foldl_nil]
    have hlen := copyRows_length height width3 xs ys stride data n img himg
      (by omega) hx
    have hslice := sliceOf_length_le data (n * stride) stride
    have hd : height - 1 - (ys + n) + 1 ≤ height := by omega
    have hmul : (height - 1 - (ys + n) + 1) * width3 ≤ height * width3 :=
      Nat.mul_le_mul_right _ hd
    have hexp : (height - 1 - (ys + n) + 1) * width3 =
        (height - 1 - (ys + n)) * width3 + width3 := by ring
    have hcomm : width3 * height = height * width3 := Nat.mul_comm _ _
    have hspan : i < (height - 1 - (ys + n)) * width3 ∨
        (height - 1 - (ys + n) + 1) * width3 ≤ i := by
      by_contra hcon
      push_neg at hcon
      exact hmiss n (by omega) (Nat.div_eq_of_lt_le hcon.1 hcon.2)
    rw [writeSlice_getElem_outside _ _ _ _ (by rw [hlen]; omega)
      (by omega)]
    exact ih img himg (by omega) hx (fun k hk => hmiss k (by omega))

theorem copyRows_pixel (height width3 xs xe ys ye : ℕ) (data : List ℕ)
    (y x ch : ℕ)
    (hys : ys ≤ y) (hy : y < ye) (hye : ye ≤ height)
    (hxs : xs ≤ x) (hx : x < xe) (hch : ch < 3)
    (hxe3 : xs * 3 + (xe - xs) * 3 ≤ width3)
    (hdata : data.length = (ye - ys) * ((xe - xs) * 3)) :
    ∀ (n : ℕ) (img : List ℕ), img.length = width3 * height →
      n ≤ ye - ys →
      ((List.range n).foldl
        (fun im row_idx => writeSlice im
          ((height - 1 - (ys + row_idx)) * width3 + xs * 3)
          (sliceOf data (row_idx * ((xe - xs) * 3)) ((xe - xs) * 3)))
        img)[(height - 1 - y) * width3 + x * 3 + ch]? =
      (if y - ys < n
       then data[(y - ys) * ((xe - xs) * 3) + (x - xs) * 3 + ch]?
       else img[(height - 1 - y) * width3 + x * 3 + ch]?) := by
  intro n
  induction n with
  | zero =>
    intro img _ _
    rw [if_neg (by omega)]
    rfl
  | succ n ih =>
    intro img himg hn
    rw [List.range_succ, List.foldl_append, List.foldl_cons, List.foldl_nil]
    have hlen := copyRows_length height width3 xs ys ((xe - xs) * 3) data n img
      himg (by omega) hxe3
    have hslice := sliceOf_length_le data (n * ((xe - xs) * 3)) ((xe - xs) * 3)
    have hnye : ys + n < ye := by omega
    have hW : x * 3 + ch < xs * 3 + (xe - xs) * 3 := by omega
    have hdn1 : height - 1 - (ys + n) + 1 ≤ height := by omega
    have hmB : (height - 1 - (ys + n) + 1) * width3 ≤ height * width3 :=
      Nat.mul_le_mul_right _ hdn1
    have hmBe : (height - 1 - (ys + n) + 1) * width3 =
        (height - 1 - (ys + n)) * width3 + width3 := by ring
    have hcomm : width3 * height = height * width3 := Nat.mul_comm _ _
    rcases Nat.lt_trichotomy (y - ys) n with hlt | heq | hgt
    · -- our row was already written by an earlier iteration
      have hihv := ih img himg (by omega)
      rw [if_pos hlt] at hihv
      have hm1 : (height - 1 - (ys + n) + 1) * width3 ≤
          (height - 1 - y) * width3 :=
        Nat.mul_le_mul_right _ (by omega)
      rw [writeSlice_getElem_outside _ _ _ _ (by rw [hlen]; omega)
        (Or.inr (by omega))]
      rw [hihv, if_pos (by omega)]
    · -- this iteration writes our row
      have hyn : y = ys + n := by omega
      have hfull : (sliceOf data (n * ((xe - xs) * 3)) ((xe - xs) * 3)).length =
          (xe - xs) * 3 := by
        apply sliceOf_length_full
        rw [hdata]
        have : (n + 1) * ((xe - xs) * 3) ≤ (ye - ys) * ((xe - xs) * 3) :=
          Nat.mul_le_mul_right _ (by omega)
        have he : (n + 1) * ((xe - xs) * 3) =
            n * ((xe - xs) * 3) + (xe - xs) * 3 := by ring
        omega
      have hidx : (height - 1 - y) * width3 + x * 3 + ch =
          ((height - 1 - (ys + n)) * width3 + xs * 3) + ((x - xs) * 3 + ch) := by
        rw [← hyn]
        omega
      rw [hidx]
      rw [writeSlice_getElem_inside _ _ _ _ (by rw [hlen, hfull]; omega)
        (by rw [hfull]; omega)]
      rw [sliceOf_getElem _ _ _ _ (by omega)]
      rw [if_pos (by omega)]
      rw [show n * ((xe - xs) * 3) + ((x - xs) * 3 + ch) =
        (y - ys) * ((xe - xs) * 3) + (x - xs) * 3 + ch from by
          rw [show y - ys = n from by omega]; ring]
    · -- our row is written by a later iteration
      have hm1 : (height - 1 - y + 1) * width3 ≤
          (height - 1 - (ys + n)) * width3 :=
        Nat.mul_le_mul_right _ (by omega)
      have hm1e : (height - 1 - y + 1) * width3 =
          (height - 1 - y) * width3 + width3 := by ring
      rw [writeSlice_getElem_outside _ _ _ _ (by rw [hlen]; omega)
        (Or.inl (by omega))]
      rw [ih img himg (by omega), if_neg (by omega), if_neg (by omega)]

theorem copyChunk_length (height width3 : ℕ) (img : List ℕ) (c : ChunkOutput)
    (himg : img.length = width3 * height)
    (hyy : c.bounds.y_start ≤ c.bounds.y_end)
    (hye : c.bounds.y_end ≤ height)
    (hx : c.bounds.x_start * 3 + (c.bounds.x_end - c.bounds.x_start) * 3 ≤
      width3) :
    (copyChunk height width3 img c).length = width3 * height := by
  unfold copyChunk
  exact copyRows_length height width3 c.bounds.x_start c.bounds.y_start
    ((c.bounds.x_end - c.bounds.x_start) * 3) c.data
    (c.bounds.y_end - c.bounds.y_start) img himg (by omega) hx

theorem copyChunk_untouched (height width3 : ℕ) (img : List ℕ)
    (c : ChunkOutput) (i : ℕ)
    (himg : img.length = width3 * height)
    (hyy : c.bounds.y_start ≤ c.bounds.y_end)
    (hye : c.bounds.y_end ≤ height)
    (hx : c.bounds.x_start * 3 + (c.bounds.x_end - c.bounds.x_start) * 3 ≤
      width3)
    (hmiss : ∀ yy, c.bounds.y_start ≤ yy → yy < c.bounds.y_end →
      i / width3 ≠ height - 1 - yy) :
    (copyChunk height width3 img c)[i]? = img[i]? := by
  unfold copyChunk
  exact copyRows_untouched height width3 c.bounds.x_start c.bounds.y_start
    ((c.bounds.x_end - c.bounds.x_start) * 3) c.data i
    (c.bounds.y_end - c.bounds.y_start) img himg (by omega) hx
    (fun k hk => hmiss (c.bounds.y_start + k) (by omega) (by omega))

theorem copyChunk_pixel (height width3 : ℕ) (img : List ℕ) (c : ChunkOutput)
    (y x ch : ℕ)
    (himg : img.length = width3 * height)
    (hys : c.bounds.y_start ≤ y) (hy : y < c.bounds.y_end)
    (hye : c.bounds.y_end ≤ height)
    (hxs : c.bounds.x_start ≤ x) (hx : x < c.bounds.x_end) (hch : ch < 3)
    (hxe3 : c.bounds.x_start * 3 + (c.bounds.x_end - c.bounds.x_start) * 3 ≤
      width3)
    (hdata : c.data.length = (c.bounds.y_end - c.bounds.y_start) *
      ((c.bounds.x_end - c.bounds.x_start) * 3)) :
    (copyChunk height width3 img c)[(height - 1 - y) * width3 + x * 3 + ch]? =
      c.data[(y - c.bounds.y_start) *
        ((c.bounds.x_end - c.bounds.x_start) * 3) +
        (x - c.bounds.x_start) * 3 + ch]? := by
  unfold copyChunk
  have h := copyRows_pixel height width3 c.bounds.x_start c.bounds.x_end
    c.bounds.y_start c.bounds.y_end c.data y x ch hys hy hye hxs hx hch hxe3
    hdata (c.bounds.y_end - c.bounds.y_start) img himg (le_refl _)
  rw [if_pos (by omega)] at h
  exact h

theorem assembleFold_length (height width3 : ℕ) :
    ∀ (chunks : List ChunkOutput) (img : List ℕ),
      img.length = width3 * height →
      (∀ c ∈ chunks, c.bounds.y_start ≤ c.bounds.y_end ∧
        c.bounds.y_end ≤ height ∧
        c.bounds.x_start * 3 + (c.bounds.x_end - c.bounds.x_start) * 3 ≤
          width3) →
      (chunks.foldl (copyChunk height width3) img).length =
        width3 * height := by
  intro chunks
  induction chunks with
  | nil => intro img h _; simpa using h
  | cons c rest ih =>
    intro img himg hgood
    rw [List.foldl_cons]
    exact ih _ (copyChunk_length height width3 img c himg
        (hgood c (List.mem_cons_self _ _)).1
        (hgood c (List.mem_cons_self _ _)).2.1
        (hgood c (List.mem_cons_self _ _)).2.2)
      (fun c' hc' => hgood c' (List.mem_cons_of_mem _ hc'))

theorem assembleFold_untouched (height width3 : ℕ) (i : ℕ) :
    ∀ (chunks : List ChunkOutput) (img : List ℕ),
      img.length = width3 * height →
      (∀ c ∈ chunks, c.bounds.y_start ≤ c.bounds.y_end ∧
        c.bounds.y_end ≤ height ∧
        c.bounds.x_start * 3 + (c.bounds.x_end - c.bounds.x_start) * 3 ≤
          width3) →
      (∀ c ∈ chunks, ∀ yy, c.bounds.y_start ≤ yy → yy < c.bounds.y_end →
        i / width3 ≠ height - 1 - yy) →
      (chunks.foldl (copyChunk height width3) img)[i]? = img[i]? := by
  intro chunks
  induction chunks with
  | nil => intro img _ _ _; rfl
  | cons c rest ih =>
    intro img himg hgood hmiss
    rw [List.foldl_cons]
    rw [ih _ (copyChunk_length height width3 img c himg
        (hgood c (List.mem_cons_self _ _)).1
        (hgood c (List.mem_cons_self _ _)).2.1
        (hgood c (List.mem_cons_self _ _)).2.2)
      (fun c' hc' => hgood c' (List.mem_cons_of_mem _ hc'))
      (fun c' hc' => hmiss c' (List.mem_cons_of_mem _ hc'))]
    exact copyChunk_untouched height width3 img c i himg
      (hgood c (List.mem_cons_self _ _)).1
      (hgood c (List.mem_cons_self _ _)).2.1
      (hgood c (List.mem_cons_self _ _)).2.2
      (hmiss c (List.mem_cons_self _ _))

/-- C7: assemble_chunks produces a buffer of exactly width * height * 3
bytes; when the chunks' row-bands partition the image rows, the pixel
rendered at image coordinates (x, y) by its chunk is stored in output row
height - 1 - y (the image is flipped vertically), at the byte offsets of
that row given by the column x; and a chunk's copy never writes a byte
whose output row does not correspond to one of that chunk's rows. -/
theorem C7_assemble_layout (chunks : List ChunkOutput) (width height : ℕ)
    (hgood : ∀ c ∈ chunks,
      c.bounds.x_start ≤ c.bounds.x_end ∧ c.bounds.x_end ≤ width ∧
      c.bounds.y_start ≤ c.bounds.y_end ∧ c.bounds.y_end ≤ height ∧
      c.data.length = (c.bounds.y_end - c.bounds.y_start) *
        ((c.bounds.x_end - c.bounds.x_start) * 3))
    (hdisj : chunks.Pairwise (fun c1 c2 => ∀ yy,
      c1.bounds.y_start ≤ yy → yy < c1.bounds.y_end →
      ¬(c2.bounds.y_start ≤ yy ∧ yy < c2.bounds.y_end)))
    (_hcover : ∀ yy < height, ∃ c ∈ chunks,
      c.bounds.y_start ≤ yy ∧ yy < c.bounds.y_end) :
    (assembleChunks chunks width height).length = width * height * 3 ∧
    (∀ c ∈ chunks, ∀ y x ch,
      c.bounds.y_start ≤ y → y < c.bounds.y_end →
      c.bounds.x_start ≤ x → x < c.bounds.x_end → ch < 3 →
      (assembleChunks chunks width height)[(height - 1 - y) * (width * 3) +
          x * 3 + ch]? =
        c.data[(y - c.bounds.y_start) *
          ((c.bounds.x_end - c.bounds.x_start) * 3) +
          (x - c.bounds.x_start) * 3 + ch]?) ∧
    (∀ c ∈ chunks, ∀ (img : List ℕ) (i : ℕ),
      img.length = width * 3 * height →
      (∀ yy, c.bounds.y_start ≤ yy → yy < c.bounds.y_end →
        i / (width * 3) ≠ height - 1 - yy) →
      (copyChunk height (width * 3) img c)[i]? = img[i]?) := by
  have hbase : (List.replicate (width * 3 * height) 0).length =
      width * 3 * height := List.length_replicate _ _
  have hgood' : ∀ c ∈ chunks, c.bounds.y_start ≤ c.bounds.y_end ∧
      c.bounds.y_end ≤ height ∧
      c.bounds.x_start * 3 + (c.bounds.x_end - c.bounds.x_start) * 3 ≤
        width * 3 := by
    intro c hc
    obtain ⟨h1, h2, h3, h4, h5⟩ := hgood c hc
    exact ⟨h3, h4, by omega⟩
  refine ⟨?_, ?_, ?_⟩
  · show (chunks.foldl (copyChunk height (width * 3))
      (List.replicate (width * 3 * height) 0)).length = width * height * 3
    rw [assembleFold_length height (width * 3) chunks _ hbase hgood']
    ring
  · -- pixel placement, by induction over the chunk list
    have main : ∀ (cs : List ChunkOutput) (img : List ℕ),
        img.length = width * 3 * height →
        (∀ c ∈ cs, c.bounds.x_start ≤ c.bounds.x_end ∧
          c.bounds.x_end ≤ width ∧
          c.bounds.y_start ≤ c.bounds.y_end ∧ c.bounds.y_end ≤ height ∧
          c.data.length = (c.bounds.y_end - c.bounds.y_start) *
            ((c.bounds.x_end - c.bounds.x_start) * 3)) →
        cs.Pairwise (fun c1 c2 => ∀ yy,
          c1.bounds.y_start ≤ yy → yy < c1.bounds.y_end →
          ¬(c2.bounds.y_start ≤ yy ∧ yy < c2.bounds.y_end)) →
        ∀ c ∈ cs, ∀ y x ch,
          c.bounds.y_start ≤ y → y < c.bounds.y_end →
          c.bounds.x_start ≤ x → x < c.bounds.x_end → ch < 3 →
          (cs.foldl (copyChunk height (width * 3)) img)[
              (height - 1 - y) * (width * 3) + x * 3 + ch]? =
            c.data[(y - c.bounds.y_start) *
              ((c.bounds.x_end - c.bounds.x_start) * 3) +
              (x - c.bounds.x_start) * 3 + ch]? := by
      intro cs
      induction cs with
      | nil => intro img _ _ _ c hc; exact absurd hc (List.not_mem_nil _)
      | cons c0 rest ih =>
        intro img himg hgoodc hdisjc c hc y x ch hys hy hxs hx hch
        rw [List.foldl_cons]
        rcases List.mem_cons.mp hc with rfl | hcrest
        · -- c is the head: its copy writes the byte, later chunks skip it
          obtain ⟨hc1, hc2, hc3, hc4, hc5⟩ := hgoodc c (List.mem_cons_self _ _)
          have hxw : c.bounds.x_start * 3 +
              (c.bounds.x_end - c.bounds.x_start) * 3 ≤ width * 3 := by omega
          have hvalue := copyChunk_pixel height (width * 3) img c y x ch himg
            hys hy hc4 hxs hx hch hxw hc5
          have hdivrow : ((height - 1 - y) * (width * 3) + x * 3 + ch) /
              (width * 3) = height - 1 - y := by
            apply Nat.div_eq_of_lt_le
            · omega
            · have he : (height - 1 - y + 1) * (width * 3) =
                  (height - 1 - y) * (width * 3) + width * 3 := by ring
              omega
          rw [assembleFold_untouched height (width * 3) _ rest _
            (copyChunk_length height (width * 3) img c himg hc3 hc4 hxw)
            (fun c' hc' => by
              obtain ⟨_, h2', h3', h4', _⟩ :=
                hgoodc c' (List.mem_cons_of_mem _ hc')
              exact ⟨h3', h4', by omega⟩)
            (fun c' hc' yy hyy1 hyy2 => by
              rw [hdivrow]
              have hdis := (List.pairwise_cons.mp hdisjc).1 c' hc' y hys hy
              have hynot : ¬(yy = y) := by
                intro heq
                exact hdis ⟨by omega, by omega⟩
              obtain ⟨_, _, _, h4', _⟩ :=
                hgoodc c' (List.mem_cons_of_mem _ hc')
              omega)]
          exact hvalue
        · -- c sits later in the list
          obtain ⟨hc1, hc2, hc3, hc4, hc5⟩ :=
            hgoodc c0 (List.mem_cons_self _ _)
          exact ih _
            (copyChunk_length height (width * 3) img c0 himg hc3 hc4 (by omega))
            (fun c' hc' => hgoodc c' (List.mem_cons_of_mem _ hc'))
            (List.pairwise_cons.mp hdisjc).2
            c hcrest y x ch hys hy hxs hx hch
    intro c hc y x ch hys hy hxs hx hch
    exact main chunks _ hbase hgood hdisj c hc y x ch hys hy hxs hx hch
  · intro c hc img i himg hmiss
    obtain ⟨h1, h2, h3, h4, h5⟩ := hgood c hc
    exact copyChunk_untouched height (width * 3) img c i himg h3 h4
      (by omega) hmiss

/-- Witness for C7: a 1x2 image assembled from two single-row chunks; the
buffer has 6 bytes and the pixel of the bottom chunk row y = 0 lands in
output row 1 (the image is flipped), so byte 3 holds its red channel. -/
theorem C7_assemble_layout_witness :
    (assembleChunks [⟨⟨0, 1, 0, 1⟩, [1, 2, 3]⟩, ⟨⟨0, 1, 1, 2⟩, [4, 5, 6]⟩]
        1 2).length = 1 * 2 * 3 ∧
    (assembleChunks [⟨⟨0, 1, 0, 1⟩, [1, 2, 3]⟩, ⟨⟨0, 1, 1, 2⟩, [4, 5, 6]⟩]
        1 2)[(2 - 1 - 0) * (1 * 3) + 0 * 3 + 0]? = some 1 := by
  have hgood : ∀ c ∈ [(⟨⟨0, 1, 0, 1⟩, [1, 2, 3]⟩ : ChunkOutput),
      ⟨⟨0, 1, 1, 2⟩, [4, 5, 6]⟩],
      c.bounds.x_start ≤ c.bounds.x_end ∧ c.bounds.x_end ≤ 1 ∧
      c.bounds.y_start ≤ c.bounds.y_end ∧ c.bounds.y_end ≤ 2 ∧
      c.data.length = (c.bounds.y_end - c.bounds.y_start) *
        ((c.bounds.x_end - c.bounds.x_start) * 3) := by
    intro c hc
    rcases List.mem_cons.mp hc with rfl | hc'
    · exact ⟨by decide, by decide, by decide, by decide, by decide⟩
    rcases List.mem_cons.mp hc' with rfl | hc''
    · exact ⟨by decide, by decide, by decide, by decide, by decide⟩
    exact absurd hc'' (List.not_mem_nil _)
  have hdisj : ([(⟨⟨0, 1, 0, 1⟩, [1, 2, 3]⟩ : ChunkOutput),
      ⟨⟨0, 1, 1, 2⟩, [4, 5, 6]⟩]).Pairwise (fun c1 c2 => ∀ yy,
      c1.bounds.y_start ≤ yy → yy < c1.bounds.y_end →
      ¬(c2.bounds.y_start ≤ yy ∧ yy < c2.bounds.y_end)) := by
    refine List.pairwise_cons.mpr ⟨?_, List.pairwise_singleton _ _⟩
    intro c' hc' yy h1 h2
    have hc'' : c' = ⟨⟨0, 1, 1, 2⟩, [4, 5, 6]⟩ := by
      rcases List.mem_cons.mp hc' with rfl | h
      · rfl
      · exact absurd h (List.not_mem_nil _)
    subst hc''
    have h2' : yy < 1 := h2
    rintro ⟨ha, hb⟩
    have ha' : 1 ≤ yy := ha
    omega
  have hcover : ∀ yy < 2, ∃ c ∈ [(⟨⟨0, 1, 0, 1⟩, [1, 2, 3]⟩ : ChunkOutput),
      ⟨⟨0, 1, 1, 2⟩, [4, 5, 6]⟩],
      c.bounds.y_start ≤ yy ∧ yy < c.bounds.y_end := by
    intro yy hyy
    interval_cases yy
    · exact ⟨⟨⟨0, 1, 0, 1⟩, [1, 2, 3]⟩, List.mem_cons_self _ _,
        by decide, by decide⟩
    · exact ⟨⟨⟨0, 1, 1, 2⟩, [4, 5, 6]⟩,
        List.mem_cons_of_mem _ (List.mem_cons_self _ _),
        by decide, by decide⟩
  have h := C7_assemble_layout
    [⟨⟨0, 1, 0, 1⟩, [1, 2, 3]⟩, ⟨⟨0, 1, 1, 2⟩, [4, 5, 6]⟩] 1 2
    hgood hdisj hcover
  refine ⟨h.1, ?_⟩
  have h2 := h.2.1 ⟨⟨0, 1, 0, 1⟩, [1, 2, 3]⟩ (List.mem_cons_self _ _) 0 0 0
    (by decide) (by decide) (by decide) (by decide) (by decide)
  rw [h2]
  decide

end RustRay
